import Mathlib

/-!
Verification of the monkey-manager intake pipeline.

This file shallowly embeds the identity-resolution, canonical-naming,
forensic-logging, extraction-orchestration, enrichment and log-analysis
code of the repository (file_renamer.py, process_files.py,
text_extractor.py, forensic_logger.py, surveymonkey_enricher.py,
validate_processing.py, forensic_analysis.py) and proves or refutes the
behavioural claims made by the specification.

Python strings are modelled as Lean `String` (a wrapper around
`List Char`); the Python string operations used by the code
(`str.replace`, the `in` operator, `str.strip`, `str.lower`,
`os.path.basename`, `os.path.splitext`, decimal rendering of `int`)
are given explicit executable definitions faithful to CPython's
behaviour on the inputs the pipeline feeds them.
-/

/-- Python whitespace characters stripped by `str.strip()`. -/
def isPySpace (c : Char) : Bool :=
  c = ' ' || c = '\t' || c = '\n' || c = '\r' || c = '\x0b' || c = '\x0c'

/-- The character class `[a-zA-Z0-9]` of the regex in
`SurveyMonkeyEnricher.normalize_filename` (ASCII alphanumerics). -/
def isPyAlnum (c : Char) : Bool :=
  (48 ≤ c.toNat && c.toNat ≤ 57) ||
  (65 ≤ c.toNat && c.toNat ≤ 90) ||
  (97 ≤ c.toNat && c.toNat ≤ 122)

/-- ASCII decimal digit test (`[0-9]`). -/
def isPyDigit (c : Char) : Bool := 48 ≤ c.toNat && c.toNat ≤ 57

/-- `str.lower()` on a single character; the pipeline only lowercases
ASCII data (extensions, alphanumerics), where Python's Unicode lowering
coincides with ASCII lowering. -/
def lowerChar (c : Char) : Char :=
  if 65 ≤ c.toNat && c.toNat ≤ 90 then Char.ofNat (c.toNat + 32) else c

/-- `str.lower()`. -/
def lowerStr (s : String) : String := ⟨s.data.map lowerChar⟩

/-- `str.strip()` (leading and trailing whitespace removed). -/
def pyStripList (l : List Char) : List Char :=
  ((l.dropWhile isPySpace).reverse.dropWhile isPySpace).reverse

/-- `str.strip()` on `String`. -/
def pyStrip (s : String) : String := ⟨pyStripList s.data⟩

/-- Substring test: `pat in s` for Python strings, on char lists. -/
def pySubList (pat : List Char) : List Char → Bool
  | [] => pat.isEmpty
  | c :: rest => pat.isPrefixOf (c :: rest) || pySubList pat rest

/-- Python's `pat in s` operator. -/
def pyIn (pat s : String) : Bool := pySubList pat.data s.data

/-- Fuel-driven scan of Python `str.replace`: replace non-overlapping
occurrences of `pat` (nonempty) by `rep`, left to right.  The fuel is
only a termination device; `pyReplaceCore` supplies enough of it. -/
def pyReplaceFuel : Nat → List Char → List Char → List Char → List Char
  | 0, _, _, l => l
  | Nat.succ fuel, pat, rep, l =>
    match l with
    | [] => []
    | c :: rest =>
      if pat ≠ [] && pat.isPrefixOf (c :: rest) then
        rep ++ pyReplaceFuel fuel pat rep (rest.drop (pat.length - 1))
      else
        c :: pyReplaceFuel fuel pat rep rest

/-- Core of Python `str.replace` on char lists. -/
def pyReplaceCore (pat rep l : List Char) : List Char :=
  pyReplaceFuel (l.length + 1) pat rep l

/-- Python `s.replace(pat, rep)` (for empty `pat` the pipeline never
calls it; modelled as the identity there). -/
def pyReplace (s pat rep : String) : String :=
  if pat.data = [] then s else ⟨pyReplaceCore pat.data rep.data s.data⟩

/-- `os.path.basename` (POSIX): the part after the last `/`. -/
def basenameList (l : List Char) : List Char :=
  (l.reverse.takeWhile (fun c => c ≠ '/')).reverse

/-- Stem part of `os.path.splitext`: split at the last dot, provided
some character of the basename before that dot is not a dot (leading
dots do not start an extension). The pipeline always applies this
after `os.path.basename`, so separators are handled by `basenameList`. -/
def splitextStemList (l : List Char) : List Char :=
  let lead := l.takeWhile (fun c => c = '.')
  let rest := l.drop lead.length
  let revAfter := rest.reverse.takeWhile (fun c => c ≠ '.')
  if revAfter.length = rest.length then l
  else lead ++ (rest.reverse.drop (revAfter.length + 1)).reverse

/-- Extension part of `os.path.splitext` (complement of the stem). -/
def splitextExtList (l : List Char) : List Char :=
  l.drop (splitextStemList l).length

/-- `os.path.splitext` on `String`, returning `(base, ext)`. -/
def pySplitext (s : String) : String × String :=
  (⟨splitextStemList s.data⟩, ⟨splitextExtList s.data⟩)

/-- Fuel-driven digit expansion of a natural number, most significant
first.  The fuel is only a termination device. -/
def natCharsFuel : Nat → Nat → List Char
  | 0, _ => []
  | Nat.succ fuel, n =>
    if n < 10 then [Nat.digitChar n]
    else natCharsFuel fuel (n / 10) ++ [Nat.digitChar (n % 10)]

/-- Decimal digit characters of a natural number, most significant
first (the rendering used by Python's `str(int)` for `n ≥ 0`). -/
def natChars (n : Nat) : List Char := natCharsFuel (n + 1) n

theorem natCharsFuel_irrel (f1 : Nat) : ∀ (f2 n : Nat), n < f1 → n < f2 →
    natCharsFuel f1 n = natCharsFuel f2 n := by
  induction f1 using Nat.strong_induction_on with
  | _ f1 ih =>
    intro f2 n h1 h2
    match f1, f2 with
    | Nat.succ f1', Nat.succ f2' =>
      simp only [natCharsFuel]
      by_cases hn : n < 10
      · simp [hn]
      · simp only [if_neg hn]
        have hdiv : n / 10 < n := Nat.div_lt_self (by omega) (by omega)
        rw [ih f1' (by omega) f2' (n / 10) (by omega) (by omega)]

/-- Characteristic equation of `natChars`. -/
theorem natChars_eq (n : Nat) :
    natChars n = if n < 10 then [Nat.digitChar n]
      else natChars (n / 10) ++ [Nat.digitChar (n % 10)] := by
  show natCharsFuel (n + 1) n = _
  by_cases hn : n < 10
  · simp [natCharsFuel, hn]
  · simp only [natCharsFuel, if_neg hn]
    have hdiv : n / 10 < n := Nat.div_lt_self (by omega) (by omega)
    rw [natCharsFuel_irrel n (n / 10 + 1) (n / 10) (by omega) (by omega)]
    rfl

/-- Decimal rendering of a Python `int` as a char list
(`'-'` prefix for negatives). -/
def intChars (i : Int) : List Char :=
  if i < 0 then '-' :: natChars i.natAbs else natChars i.natAbs

/-- `str(n)` for a Python `int`. -/
def intStr (i : Int) : String := ⟨intChars i⟩

/-- `str(n)` for a `Nat`-valued index (column numbers 1..20). -/
def natStr (n : Nat) : String := ⟨natChars n⟩

/-- Numeric value of a decimal digit character. -/
def digitVal (c : Char) : Nat := c.toNat - 48

/-- Value of a most-significant-first digit string. -/
def digitsVal (l : List Char) : Nat :=
  l.foldl (fun a c => 10 * a + digitVal c) 0

/-- Greedy parse of a nonempty digit run followed by a literal `'-'`;
returns the run's value and the remainder.  Used to invert the
canonical-name rendering `R<rid>-<slot><ext>`. -/
def readNatDash (l : List Char) : Option (Nat × List Char) :=
  let ds := l.takeWhile isPyDigit
  let rest := l.dropWhile isPyDigit
  if ds = [] then none
  else
    match rest with
    | [] => none
    | c :: t => if c = '-' then some (digitsVal ds, t) else none

/-- Invert `intChars i ++ '-' :: rest`: recover `i` and `rest`. -/
def decodeRidSlot (l : List Char) : Option (Int × List Char) :=
  match l with
  | [] => none
  | c :: rest =>
    if c = '-' then (readNatDash rest).map (fun p => (-(p.1 : Int), p.2))
    else (readNatDash l).map (fun p => ((p.1 : Int), p.2))

-- ## Lemmas about the utilities

theorem natChars_ne_nil (n : Nat) : natChars n ≠ [] := by
  rw [natChars_eq]
  split <;> simp

theorem natChars_all_digits (n : Nat) : ∀ c ∈ natChars n, isPyDigit c = true := by
  induction n using Nat.strong_induction_on with
  | _ n ih =>
    rw [natChars_eq]
    split
    · rename_i h
      intro c hc
      simp only [List.mem_singleton] at hc
      subst hc
      interval_cases n <;> decide
    · rename_i h
      intro c hc
      rcases List.mem_append.mp hc with h1 | h2
      · exact ih (n / 10) (Nat.div_lt_self (by omega) (by omega)) c h1
      · simp only [List.mem_singleton] at h2
        subst h2
        have hm : n % 10 < 10 := Nat.mod_lt _ (by omega)
        interval_cases h : (n % 10) <;> decide

theorem digitsVal_append_one (l : List Char) (c : Char) :
    digitsVal (l ++ [c]) = 10 * digitsVal l + digitVal c := by
  simp [digitsVal, List.foldl_append]

theorem digitsVal_natChars (n : Nat) : digitsVal (natChars n) = n := by
  induction n using Nat.strong_induction_on with
  | _ n ih =>
    rw [natChars_eq]
    split
    · rename_i h
      simp only [digitsVal, List.foldl_cons, List.foldl_nil]
      interval_cases n <;> decide
    · rename_i h
      rw [digitsVal_append_one, ih (n / 10) (Nat.div_lt_self (by omega) (by omega))]
      have hm : n % 10 < 10 := Nat.mod_lt _ (by omega)
      have hd : digitVal (Nat.digitChar (n % 10)) = n % 10 := by
        interval_cases h2 : (n % 10) <;> decide
      omega

theorem takeWhile_digits_append (ds rest : List Char)
    (h : ∀ c ∈ ds, isPyDigit c = true) (hr : isPyDigit '-' = false) :
    (ds ++ '-' :: rest).takeWhile isPyDigit = ds ∧
    (ds ++ '-' :: rest).dropWhile isPyDigit = '-' :: rest := by
  induction ds with
  | nil => simp [List.takeWhile, List.dropWhile, hr]
  | cons c t ih =>
    have hc : isPyDigit c = true := h c (by simp)
    have ht : ∀ x ∈ t, isPyDigit x = true := fun x hx => h x (by simp [hx])
    obtain ⟨h1, h2⟩ := ih ht
    constructor
    · simpa [List.takeWhile, hc] using h1
    · simpa [List.dropWhile, hc] using h2

theorem readNatDash_digits (n : Nat) (rest : List Char) :
    readNatDash (natChars n ++ '-' :: rest) = some (n, rest) := by
  obtain ⟨h1, h2⟩ := takeWhile_digits_append (natChars n) rest
    (natChars_all_digits n) (by decide)
  simp only [readNatDash, h1, h2]
  rw [if_neg (natChars_ne_nil n)]
  simp [digitsVal_natChars]

theorem decodeRidSlot_intChars (i : Int) (rest : List Char) :
    decodeRidSlot (intChars i ++ '-' :: rest) = some (i, rest) := by
  by_cases h : i < 0
  · simp [intChars, if_pos h, decodeRidSlot, readNatDash_digits]
    rw [abs_of_neg h, neg_neg]
  · simp only [intChars, if_neg h]
    have hne := natChars_ne_nil i.natAbs
    rcases hh : natChars i.natAbs with _ | ⟨c, cs⟩
    · exact absurd hh hne
    · have hcd : isPyDigit c = true := by
        have := natChars_all_digits i.natAbs c (by rw [hh]; simp)
        exact this
      have hcne : ¬(c = '-') := by
        intro hc
        rw [hc] at hcd
        exact absurd hcd (by decide)
      simp only [List.cons_append, decodeRidSlot, if_neg hcne]
      have : readNatDash (natChars i.natAbs ++ '-' :: rest) = some (i.natAbs, rest) :=
        readNatDash_digits i.natAbs rest
      rw [hh] at this
      simp only [List.cons_append] at this
      rw [this]
      simp only [Option.map_some']
      have hv : (i.natAbs : Int) = i := by omega
      rw [hv]

theorem natChars_injective {m n : Nat} (h : natChars m = natChars n) : m = n := by
  have := digitsVal_natChars m
  rw [h, digitsVal_natChars] at this
  omega

-- ## Python dict model
--
-- A Python dict is modelled as an association list together with an
-- insertion discipline.  For dicts that are only ever read through
-- `get`, assignment is modelled by consing on the front and `dget`
-- returns the most recent binding, exactly `d[k] = v` / `d.get(k)`
-- last-write-wins semantics.  For dicts whose key order matters
-- (JSON objects written back to disk) `objInsert` below models
-- CPython's in-place update / append-new-key behaviour.

/-- `d.get(k)` for a cons-model dict: the most recent binding wins. -/
def dget {α : Type} : List (String × α) → String → Option α
  | [], _ => none
  | p :: t, k => if p.1 = k then some p.2 else dget t k

/-- A sequence of dict assignments `d[k] = v`, newest binding in front. -/
def consAll {α : Type} (acc : List (String × α)) (ins : List (String × α)) :
    List (String × α) :=
  ins.foldl (fun a p => p :: a) acc

-- ## FileRenamer (src/file_renamer.py) and the shared spreadsheet
-- lookup of process_files.py

/-- `FileRenamer.possible_filenames`: the raw name, plus the
percent-decoded form when `%20` occurs, plus the percent-encoded form
when a space occurs. -/
def possible_filenames (name : String) : List String :=
  [name]
    ++ (if pyIn "%20" name then [pyReplace name "%20" " "] else [])
    ++ (if pyIn " " name then [pyReplace name " " "%20"] else [])

/-- `percentEncodeSpaces` of the specification (§8). -/
def percentEncodeSpaces (f : String) : String := pyReplace f " " "%20"

/-- `decodePercentSpaces` of the specification (§8). -/
def decodePercentSpaces (f : String) : String := pyReplace f "%20" " "

/-- The `Respondent ID` cell of a mapping row, as seen by
`build_spreadsheet_lookup`.  `na` models a NaN/missing cell
(`pd.isna` true); `parsed n` a cell on which `int(float(...))`
succeeds with value `n`; `unparseable raw` a cell on which
`float(raw)` raises `ValueError`.  The float parsing itself is
CPython's and is modelled by its outcome. -/
inductive RidCell
  | na
  | parsed (n : Int)
  | unparseable (raw : String)
deriving DecidableEq

/-- A spreadsheet cell as seen by the pipeline.  `str` is a string
cell; `num` a numeric cell (modelled at integer precision, as the
pipeline converts respondent ids with `int(float(...))`); `date`
carries both `str(value)` and the `strftime('%Y-%m-%d')` rendering;
`other` a value of any other type, carried as `str(value)`. -/
inductive Cell
  | na
  | str (v : String)
  | num (v : Int)
  | boolean (v : Bool)
  | date (shown : String) (iso : String)
  | other (shown : String)
deriving DecidableEq

/-- One row of the mapping sheet for `FileRenamer`: the
`Respondent ID` cell and the `File#1`..`File#20` cells in order
(missing trailing columns read as `na`). -/
structure MappingRow where
  rid : RidCell
  files : List Cell
deriving DecidableEq

/-- The dict assignments contributed by slot `File#i` of one valid
row: one assignment per filename variant of the stripped cell value,
in loop order.  Value: `(respondent_id, parse_column_number "File#i")`. -/
def slotInserts (rid : Int) (files : List Cell) (i : Nat) : List (String × Int × String) :=
  match files.getD (i - 1) Cell.na with
  | Cell.str v =>
    if pyStrip v ≠ "" then
      (possible_filenames (pyStrip v)).map (fun variant => (variant, rid, natStr i))
    else []
  | _ => []

/-- The dict assignments contributed by one valid row (slots 1..20). -/
def insertsOfRow (rid : Int) (files : List Cell) : List (String × Int × String) :=
  ((List.range' 1 20).map (slotInserts rid files)).flatten

/-- `FileRenamer.build_spreadsheet_lookup`, threading the lookup dict
and the anomaly log through the row loop.  A row with a NaN id logs a
`missing_respondent_id` anomaly and is skipped; a row with an
unparseable id raises (`Except.error`), carrying the anomalies logged
so far. -/
def buildAux (acc : List (String × Int × String)) (anoms : List String) :
    List MappingRow → Except (List String × String) (List (String × Int × String) × List String)
  | [] => Except.ok (acc, anoms)
  | row :: rest =>
    match row.rid with
    | RidCell.na => buildAux acc (anoms ++ ["missing_respondent_id"]) rest
    | RidCell.unparseable raw =>
      Except.error (anoms, "could not convert string to float: " ++ raw)
    | RidCell.parsed rid => buildAux (consAll acc (insertsOfRow rid row.files)) anoms rest

/-- `FileRenamer.build_spreadsheet_lookup` on a whole table. -/
def build_spreadsheet_lookup (rows : List MappingRow) :
    Except (List String × String) (List (String × Int × String) × List String) :=
  buildAux [] [] rows

/-- `ResolvedIdentity` of the specification §3. -/
inductive ResolvedIdentity
  | Matched (rid : Int) (slot : String)
  | Unmatched
deriving DecidableEq

/-- Identity resolution: `spreadsheet_lookup.get(fname, None)`
interpreted per §3. -/
def resolve (lookup : List (String × Int × String)) (fname : String) :
    ResolvedIdentity :=
  match dget lookup fname with
  | some p => ResolvedIdentity.Matched p.1 p.2
  | none => ResolvedIdentity.Unmatched

/-- The canonical output name computed in `FileRenamer.rename_files`
(lines 89-95): matched files become `R<respondent_id>-<col_num><ext>`,
unmatched files `NORESPID_<base with spaces as underscores><ext>`. -/
def output_name (m : Option (Int × String)) (base ext : String) : String :=
  match m with
  | some p => "R" ++ intStr p.1 ++ "-" ++ p.2 ++ ext
  | none => "NORESPID_" ++ pyReplace base " " "_" ++ ext

/-- Events written by `FileRenamer.rename_files` to the forensic log,
in order. -/
inductive RenEvent
  | system_state
  | missing_respondent_id
  | skip_hidden_file (fname : String)
  | file_renamed (newName : String)
  | process_error (msg : String)
  | mapping_saved
deriving DecidableEq

/-- Does the filename start with the hidden-file marker `.`? -/
def startsWithDot (s : String) : Bool := s.data.head? = some '.'

/-- Body of the per-file loop of `FileRenamer.rename_files`: excluded
system artifacts are skipped silently, hidden files are logged and
recorded as skipped in the CSV, all other files are copied under their
canonical name (the copy itself is the `shutil` black box, modelled as
succeeding). -/
def renameStep (lookup : List (String × Int × String))
    (st : List RenEvent × List (String × String)) (fname : String) :
    List RenEvent × List (String × String) :=
  if fname = ".DS_Store" ∨ fname = ".gitkeep" then st
  else if startsWithDot fname then
    (st.1 ++ [RenEvent.skip_hidden_file fname],
     st.2 ++ [(fname, "SKIPPED (hidden/system)")])
  else
    let be := pySplitext fname
    let nn := output_name (dget lookup fname) be.1 be.2
    (st.1 ++ [RenEvent.file_renamed nn], st.2 ++ [(fname, nn)])

/-- `FileRenamer.rename_files`: build the lookup (anomalies logged as
they occur), process every file of the walk, then write the mapping
CSV.  An exception while building the lookup is caught by the
outermost handler, which logs a `process_error` anomaly — no file is
processed in that case. -/
def rename_files (rows : List MappingRow) (files : List String) :
    List RenEvent × List (String × String) :=
  match build_spreadsheet_lookup rows with
  | Except.error ea =>
    ([RenEvent.system_state] ++ ea.1.map (fun _ => RenEvent.missing_respondent_id)
      ++ [RenEvent.process_error ea.2, RenEvent.system_state], [])
  | Except.ok la =>
    let st := files.foldl (renameStep la.1)
      ([RenEvent.system_state] ++ la.2.map (fun _ => RenEvent.missing_respondent_id), [])
    (st.1 ++ [RenEvent.mapping_saved, RenEvent.system_state], st.2)

/-- The declared filename occurrence of slot `File#i` of a valid row:
the stripped value of a populated string slot, with its
`(respondent_id, column)` value. -/
def slotOccs (rid : Int) (files : List Cell) (i : Nat) : List (String × Int × String) :=
  match files.getD (i - 1) Cell.na with
  | Cell.str v => if pyStrip v ≠ "" then [(pyStrip v, rid, natStr i)] else []
  | _ => []

/-- The declared filename occurrences of a row (slots 1..20). -/
def occsOfRow (rid : Int) (files : List Cell) : List (String × Int × String) :=
  ((List.range' 1 20).map (slotOccs rid files)).flatten

/-- All declared filename occurrences of a table (valid rows only). -/
def declaredOccs (rows : List MappingRow) : List (String × Int × String) :=
  (rows.map (fun row =>
    match row.rid with
    | RidCell.parsed rid => occsOfRow rid row.files
    | _ => [])).flatten

/-- The flat sequence of dict assignments performed by
`build_spreadsheet_lookup` over a table, in execution order. -/
def buildInserts (rows : List MappingRow) : List (String × Int × String) :=
  (rows.map (fun row =>
    match row.rid with
    | RidCell.parsed rid => insertsOfRow rid row.files
    | _ => [])).flatten

-- ## Dict and build lemmas

theorem consAll_append {α : Type} (acc : List (String × α)) (x y : List (String × α)) :
    consAll acc (x ++ y) = consAll (consAll acc x) y := by
  simp [consAll, List.foldl_append]

/-- If every assignment of key `k` in the sequence carries value `val`,
and `k` is assigned at least once (or already held `val`), the final
dict lookup yields `val`. -/
theorem dget_consAll {α : Type} (ins : List (String × α)) :
    ∀ (acc : List (String × α)) (k : String) (val : α),
    (∀ w, (k, w) ∈ ins → w = val) →
    ((k, val) ∈ ins ∨ dget acc k = some val) →
    dget (consAll acc ins) k = some val := by
  induction ins with
  | nil =>
    intro acc k val _ hm
    rcases hm with h | h
    · simp at h
    · simpa [consAll] using h
  | cons p t ih =>
    intro acc k val hall hm
    have hstep : consAll acc (p :: t) = consAll (p :: acc) t := rfl
    rw [hstep]
    apply ih (p :: acc) k val (fun w hw => hall w (List.mem_cons_of_mem p hw))
    by_cases hk : p.1 = k
    · right
      have hp : p = (k, p.2) := by
        cases p; simp at hk; simp [hk]
      have : p.2 = val := hall p.2 (by rw [hp] at *; exact List.mem_cons_self _ _)
      simp [dget, hk, this]
    · rcases hm with h | h
      · rcases List.mem_cons.mp h with h1 | h1
        · exact absurd (congrArg Prod.fst h1.symm) hk
        · left; exact h1
      · right; simpa [dget, hk] using h

theorem buildAux_ok_lookup (rows : List MappingRow) :
    ∀ acc anoms l a, buildAux acc anoms rows = Except.ok (l, a) →
    l = consAll acc (buildInserts rows) := by
  induction rows with
  | nil =>
    intro acc anoms l a h
    simp [buildAux] at h
    simp [buildInserts, consAll, h.1.symm]
  | cons row rest ih =>
    intro acc anoms l a h
    match hr : row.rid with
    | RidCell.na =>
      rw [buildAux, hr] at h
      have := ih _ _ _ _ h
      simpa [buildInserts, hr] using this
    | RidCell.unparseable raw =>
      rw [buildAux, hr] at h
      exact absurd h (by simp)
    | RidCell.parsed rid =>
      rw [buildAux, hr] at h
      have := ih _ _ _ _ h
      rw [this]
      show consAll (consAll acc (insertsOfRow rid row.files)) (buildInserts rest)
        = consAll acc (buildInserts (row :: rest))
      have hbi : buildInserts (row :: rest) = insertsOfRow rid row.files ++ buildInserts rest := by
        simp [buildInserts, hr]
      rw [hbi, consAll_append]

/-- Number of rows whose respondent id is NaN. -/
def countNa (rows : List MappingRow) : Nat :=
  (rows.filter (fun r => r.rid = RidCell.na)).length

/-- Is the respondent id cell unparseable (would raise in
`int(float(...))`)? -/
def isUnparseableRid : RidCell → Bool
  | RidCell.unparseable _ => true
  | _ => false

theorem buildAux_ok_of_no_unparseable (rows : List MappingRow) :
    ∀ acc anoms, (∀ r ∈ rows, isUnparseableRid r.rid = false) →
    buildAux acc anoms rows =
      Except.ok (consAll acc (buildInserts rows),
        anoms ++ List.replicate (countNa rows) "missing_respondent_id") := by
  induction rows with
  | nil =>
    intro acc anoms _
    simp [buildAux, buildInserts, consAll, countNa]
  | cons row rest ih =>
    intro acc anoms h
    have hrest : ∀ r ∈ rest, isUnparseableRid r.rid = false :=
      fun r hr => h r (List.mem_cons_of_mem row hr)
    match hr : row.rid with
    | RidCell.na =>
      have hstep : buildAux acc anoms (row :: rest)
          = buildAux acc (anoms ++ ["missing_respondent_id"]) rest := by
        rw [buildAux, hr]
      rw [hstep, ih _ _ hrest]
      have h1 : buildInserts (row :: rest) = buildInserts rest := by
        simp [buildInserts, hr]
      have h2 : countNa (row :: rest) = countNa rest + 1 := by
        simp [countNa, List.filter, hr]
      rw [h1, h2]
      simp [List.replicate_succ]
    | RidCell.unparseable raw =>
      have := h row (List.mem_cons_self _ _)
      rw [hr] at this
      simp [isUnparseableRid] at this
    | RidCell.parsed rid =>
      have hstep : buildAux acc anoms (row :: rest)
          = buildAux (consAll acc (insertsOfRow rid row.files)) anoms rest := by
        rw [buildAux, hr]
      rw [hstep, ih _ _ hrest]
      have h1 : buildInserts (row :: rest) = insertsOfRow rid row.files ++ buildInserts rest := by
        simp [buildInserts, hr]
      have h2 : countNa (row :: rest) = countNa rest := by
        simp [countNa, List.filter, hr]
      rw [h1, h2, consAll_append]


theorem mem_slotInserts_iff (rid : Int) (files : List Cell) (i : Nat)
    (q : String × Int × String) :
    q ∈ slotInserts rid files i ↔
      ∃ fv, fv ∈ slotOccs rid files i ∧ q.1 ∈ possible_filenames fv.1 ∧ q.2 = fv.2 := by
  unfold slotInserts slotOccs
  cases files.getD (i - 1) Cell.na with
  | str v =>
    by_cases hv : pyStrip v ≠ ""
    · simp only [if_pos hv, List.mem_map, List.mem_singleton]
      constructor
      · rintro ⟨t, ht, rfl⟩
        exact ⟨(pyStrip v, rid, natStr i), rfl, ht, rfl⟩
      · rintro ⟨fv, rfl, h1, h2⟩
        refine ⟨q.1, h1, ?_⟩
        cases q with
        | mk q1 q2 => simp at h2 ⊢; exact h2.symm
    · simp [if_neg hv]
  | na => simp
  | num v => simp
  | boolean v => simp
  | date s iso => simp
  | other s => simp

theorem mem_insertsOfRow_iff (rid : Int) (files : List Cell)
    (q : String × Int × String) :
    q ∈ insertsOfRow rid files ↔
      ∃ fv, fv ∈ occsOfRow rid files ∧ q.1 ∈ possible_filenames fv.1 ∧ q.2 = fv.2 := by
  unfold insertsOfRow occsOfRow
  simp only [List.mem_flatten, List.mem_map]
  constructor
  · rintro ⟨inner, ⟨i, hi, rfl⟩, hq⟩
    obtain ⟨fv, hfv, h1, h2⟩ := (mem_slotInserts_iff rid files i q).mp hq
    exact ⟨fv, ⟨slotOccs rid files i, ⟨i, hi, rfl⟩, hfv⟩, h1, h2⟩
  · rintro ⟨fv, ⟨inner, ⟨i, hi, rfl⟩, hfv⟩, h1, h2⟩
    exact ⟨slotInserts rid files i, ⟨i, hi, rfl⟩,
      (mem_slotInserts_iff rid files i q).mpr ⟨fv, hfv, h1, h2⟩⟩

/-- The inserts contributed by one row (matching `buildInserts`). -/
def rowInserts (row : MappingRow) : List (String × Int × String) :=
  match row.rid with
  | RidCell.parsed rid => insertsOfRow rid row.files
  | _ => []

/-- The occurrences contributed by one row (matching `declaredOccs`). -/
def rowOccs (row : MappingRow) : List (String × Int × String) :=
  match row.rid with
  | RidCell.parsed rid => occsOfRow rid row.files
  | _ => []

theorem buildInserts_eq_rowInserts (rows : List MappingRow) :
    buildInserts rows = (rows.map rowInserts).flatten := by
  unfold buildInserts rowInserts
  rfl

theorem declaredOccs_eq_rowOccs (rows : List MappingRow) :
    declaredOccs rows = (rows.map rowOccs).flatten := by
  unfold declaredOccs rowOccs
  rfl

theorem mem_rowInserts_iff (row : MappingRow) (q : String × Int × String) :
    q ∈ rowInserts row ↔
      ∃ fv, fv ∈ rowOccs row ∧ q.1 ∈ possible_filenames fv.1 ∧ q.2 = fv.2 := by
  unfold rowInserts rowOccs
  cases row.rid with
  | parsed rid => exact mem_insertsOfRow_iff rid row.files q
  | na => simp
  | unparseable raw => simp

theorem mem_buildInserts_iff (rows : List MappingRow) (q : String × Int × String) :
    q ∈ buildInserts rows ↔
      ∃ fv, fv ∈ declaredOccs rows ∧ q.1 ∈ possible_filenames fv.1 ∧ q.2 = fv.2 := by
  rw [buildInserts_eq_rowInserts, declaredOccs_eq_rowOccs]
  simp only [List.mem_flatten, List.mem_map]
  constructor
  · rintro ⟨inner, ⟨row, hrow, rfl⟩, hq⟩
    obtain ⟨fv, hfv, h1, h2⟩ := (mem_rowInserts_iff row q).mp hq
    exact ⟨fv, ⟨rowOccs row, ⟨row, hrow, rfl⟩, hfv⟩, h1, h2⟩
  · rintro ⟨fv, ⟨inner, ⟨row, hrow, rfl⟩, hfv⟩, h1, h2⟩
    exact ⟨rowInserts row, ⟨row, hrow, rfl⟩,
      (mem_rowInserts_iff row q).mpr ⟨fv, hfv, h1, h2⟩⟩

-- ## Variant lemmas

theorem pyReplaceFuel_of_not_sub (pat rep : List Char) :
    ∀ (fuel : Nat) (l : List Char), pySubList pat l = false →
    pyReplaceFuel fuel pat rep l = l := by
  intro fuel
  induction fuel with
  | zero => intro l _; rfl
  | succ fuel ih =>
    intro l hl
    cases l with
    | nil => rfl
    | cons c rest =>
      rw [pySubList, Bool.or_eq_false_iff] at hl
      have hnp : pat.isPrefixOf (c :: rest) = false := hl.1
      show (if pat ≠ [] && pat.isPrefixOf (c :: rest) then _ else
        c :: pyReplaceFuel fuel pat rep rest) = c :: rest
      rw [hnp, ih rest hl.2]
      simp

theorem pyReplace_of_not_in (s pat rep : String) (h : pyIn pat s = false) :
    pyReplace s pat rep = s := by
  unfold pyReplace
  by_cases hp : pat.data = []
  · rw [if_pos hp]
  · rw [if_neg hp]
    unfold pyReplaceCore
    rw [pyReplaceFuel_of_not_sub pat.data rep.data _ s.data h]

theorem self_mem_possible_filenames (f : String) : f ∈ possible_filenames f := by
  simp [possible_filenames]

theorem encode_mem_or_eq (f : String) :
    percentEncodeSpaces f ∈ possible_filenames f ∨ percentEncodeSpaces f = f := by
  by_cases h : pyIn " " f = true
  · left
    simp [possible_filenames, h, percentEncodeSpaces]
  · right
    exact pyReplace_of_not_in f " " "%20" (by revert h; cases pyIn " " f <;> simp)

theorem decode_mem_or_eq (f : String) :
    decodePercentSpaces f ∈ possible_filenames f ∨ decodePercentSpaces f = f := by
  by_cases h : pyIn "%20" f = true
  · left
    simp [possible_filenames, h, decodePercentSpaces]
  · right
    exact pyReplace_of_not_in f "%20" " " (by revert h; cases pyIn "%20" f <;> simp)

-- ## Claim C1

theorem dget_lookup_of_variant (rows : List MappingRow)
    (lookup : List (String × Int × String)) (anoms : List String)
    (hb : build_spreadsheet_lookup rows = Except.ok (lookup, anoms))
    (hnc : ∀ p ∈ declaredOccs rows, ∀ q ∈ declaredOccs rows,
      (∃ t ∈ possible_filenames p.1, t ∈ possible_filenames q.1) → p.2 = q.2)
    (f : String) (v : Int × String) (hf : (f, v) ∈ declaredOccs rows)
    (t : String) (ht : t ∈ possible_filenames f) :
    dget lookup t = some v := by
  have hl : lookup = consAll [] (buildInserts rows) :=
    buildAux_ok_lookup rows [] [] lookup anoms hb
  rw [hl]
  apply dget_consAll (buildInserts rows) [] t v
  · intro w hw
    obtain ⟨fv, hfv, h1, h2⟩ := (mem_buildInserts_iff rows (t, w)).mp hw
    have := hnc fv hfv (f, v) hf ⟨t, h1, ht⟩
    simp only at h2
    rw [h2, this]
  · left
    exact (mem_buildInserts_iff rows (t, v)).mpr ⟨(f, v), hf, ht, rfl⟩

/-- C1 (amended): in a mapping table where any two declared-filename
occurrences whose variant-key sets overlap carry the same
`(respondentId, slotNumber)` value, resolving a declared filename, its
percent-encoded-space form and its percent-decoded form all yield the
same `ResolvedIdentity`.  (Tables with conflicting variant-key
collisions can violate this; see the counterexample.) -/
theorem resolve_variants_consistent (rows : List MappingRow)
    (lookup : List (String × Int × String)) (anoms : List String)
    (hb : build_spreadsheet_lookup rows = Except.ok (lookup, anoms))
    (hnc : ∀ p ∈ declaredOccs rows, ∀ q ∈ declaredOccs rows,
      (∃ t ∈ possible_filenames p.1, t ∈ possible_filenames q.1) → p.2 = q.2)
    (f : String) (v : Int × String) (hf : (f, v) ∈ declaredOccs rows) :
    resolve lookup (percentEncodeSpaces f) = resolve lookup f ∧
    resolve lookup (decodePercentSpaces f) = resolve lookup f := by
  have hself : dget lookup f = some v :=
    dget_lookup_of_variant rows lookup anoms hb hnc f v hf f (self_mem_possible_filenames f)
  constructor
  · rcases encode_mem_or_eq f with h | h
    · have henc : dget lookup (percentEncodeSpaces f) = some v :=
        dget_lookup_of_variant rows lookup anoms hb hnc f v hf _ h
      simp [resolve, henc, hself]
    · rw [h]
  · rcases decode_mem_or_eq f with h | h
    · have hdec : dget lookup (decodePercentSpaces f) = some v :=
        dget_lookup_of_variant rows lookup anoms hb hnc f v hf _ h
      simp [resolve, hdec, hself]
    · rw [h]

/-- Two rows whose declared filenames collide on a variant key with
different values: row 1 declares `a b%20c` (variants `a b%20c`,
`a b c`, `a%20b%20c`), row 2 declares `a b c` (variants `a b c`,
`a%20b%20c`). -/
def rowsC1 : List MappingRow :=
  [⟨RidCell.parsed 1, [Cell.str "a b%20c"]⟩, ⟨RidCell.parsed 2, [Cell.str "a b c"]⟩]

/-- C1 is false as stated: in a table where different rows' declared
filenames collide on a variant key, the declared filename `a b%20c`
resolves to `Matched 1 1` but its percent-encoded-space form resolves
to `Matched 2 1` (the later row overwrote the shared variant keys). -/
theorem resolve_variant_collision_cex :
    build_spreadsheet_lookup rowsC1 = Except.ok (consAll [] (buildInserts rowsC1), []) ∧
    ("a b%20c", (1, "1")) ∈ declaredOccs rowsC1 ∧
    resolve (consAll [] (buildInserts rowsC1)) "a b%20c" = ResolvedIdentity.Matched 1 "1" ∧
    resolve (consAll [] (buildInserts rowsC1)) (percentEncodeSpaces "a b%20c")
      = ResolvedIdentity.Matched 2 "1" :=
  ⟨rfl, by decide, by decide, by decide⟩

/-- The scenario table of the specification §8: respondent 42 declares
`consent form.pdf` in `File#1`. -/
def rowsC1w : List MappingRow := [⟨RidCell.parsed 42, [Cell.str "consent form.pdf"]⟩]

/-- Witness for the amended C1 at a concrete collision-free table. -/
theorem resolve_variants_consistent_witness :
    resolve (consAll [] (buildInserts rowsC1w)) (percentEncodeSpaces "consent form.pdf")
      = resolve (consAll [] (buildInserts rowsC1w)) "consent form.pdf" ∧
    resolve (consAll [] (buildInserts rowsC1w)) (decodePercentSpaces "consent form.pdf")
      = resolve (consAll [] (buildInserts rowsC1w)) "consent form.pdf" :=
  resolve_variants_consistent rowsC1w (consAll [] (buildInserts rowsC1w)) []
    (by rfl) (by decide) "consent form.pdf" (42, "1") (by decide)

-- ## Claim C2

theorem output_name_matched_data (r : Int) (c : String) (b ext : String) :
    (output_name (some (r, c)) b ext).data
      = 'R' :: (intChars r ++ '-' :: (c.data ++ ext.data)) := by
  show ("R" ++ intStr r ++ "-" ++ c ++ ext).data = _
  rw [String.data_append, String.data_append, String.data_append, String.data_append]
  simp [intStr]

/-- C2: the canonical output name is the stated deterministic function
of the resolved identity and the extensions (`R<rid>-<slot><ext>` for
matched identities, `NORESPID_` plus the underscore-sanitized basename
for unmatched ones), and two distinct `(respondentId, slotNumber)`
pairs never produce the same matched name (for the same output
extension, with slot numbers rendered from their column index as the
lookup builder does). -/
theorem canonical_name_deterministic_injective :
    (∀ (r : Int) (c : String) (b ext : String),
      output_name (some (r, c)) b ext = "R" ++ intStr r ++ "-" ++ c ++ ext) ∧
    (∀ (b ext : String),
      output_name none b ext = "NORESPID_" ++ pyReplace b " " "_" ++ ext) ∧
    (∀ (r1 r2 : Int) (i1 i2 : Nat) (b1 b2 ext : String),
      (r1, i1) ≠ (r2, i2) →
      output_name (some (r1, natStr i1)) b1 ext ≠ output_name (some (r2, natStr i2)) b2 ext) := by
  refine ⟨fun r c b ext => rfl, fun b ext => rfl, ?_⟩
  intro r1 r2 i1 i2 b1 b2 ext hne heq
  have hd := congrArg String.data heq
  rw [output_name_matched_data, output_name_matched_data] at hd
  have htail : intChars r1 ++ '-' :: ((natStr i1).data ++ ext.data)
      = intChars r2 ++ '-' :: ((natStr i2).data ++ ext.data) := by
    exact List.cons_injective hd
  have hdec := congrArg decodeRidSlot htail
  rw [decodeRidSlot_intChars, decodeRidSlot_intChars] at hdec
  have hr : r1 = r2 := by
    have := congrArg (fun o => Option.map Prod.fst o) hdec
    simpa using this
  have hrest : (natStr i1).data ++ ext.data = (natStr i2).data ++ ext.data := by
    have := congrArg (fun o => Option.map Prod.snd o) hdec
    simpa using this
  have hi : i1 = i2 := by
    have hnc : natChars i1 = natChars i2 := List.append_cancel_right hrest
    exact natChars_injective hnc
  exact hne (by rw [hr, hi])

/-- Witness for C2 at the concrete pairs `(1, 1)` and `(1, 2)`. -/
theorem canonical_name_injective_witness :
    output_name (some (1, natStr 1)) "x" ".json"
      ≠ output_name (some (1, natStr 2)) "y" ".json" :=
  canonical_name_deterministic_injective.2.2 1 1 1 2 "x" "y" ".json" (by decide)

-- ## Claim C3

theorem buildInserts_cons (row : MappingRow) (rows : List MappingRow) :
    buildInserts (row :: rows) = rowInserts row ++ buildInserts rows := by
  rw [buildInserts_eq_rowInserts, buildInserts_eq_rowInserts]
  simp

theorem buildInserts_filter_na (rows : List MappingRow) :
    buildInserts (rows.filter (fun r => r.rid != RidCell.na)) = buildInserts rows := by
  induction rows with
  | nil => rfl
  | cons row rest ih =>
    match hr : row.rid with
    | RidCell.na =>
      rw [List.filter_cons]
      rw [if_neg (by simp [hr])]
      rw [ih, buildInserts_cons]
      have hri : rowInserts row = [] := by simp [rowInserts, hr]
      rw [hri, List.nil_append]
    | RidCell.parsed rid =>
      rw [List.filter_cons]
      rw [if_pos (by simp [hr])]
      rw [buildInserts_cons, buildInserts_cons, ih]
    | RidCell.unparseable raw =>
      rw [List.filter_cons]
      rw [if_pos (by simp [hr])]
      rw [buildInserts_cons, buildInserts_cons, ih]

theorem renameFold_length (lookup : List (String × Int × String)) (files : List String) :
    ∀ st : List RenEvent × List (String × String),
    ((files.foldl (renameStep lookup) st).2).length
      = st.2.length + (files.filter (fun f => !(f == ".DS_Store" || f == ".gitkeep"))).length := by
  induction files with
  | nil => intro st; simp
  | cons f rest ih =>
    intro st
    rw [List.foldl_cons, ih, List.filter_cons]
    by_cases h1 : f = ".DS_Store" ∨ f = ".gitkeep"
    · have hb : (f == ".DS_Store" || f == ".gitkeep") = true := by
        rcases h1 with h | h <;> simp [h]
      have hstep : renameStep lookup st f = st := by
        simp [renameStep, h1]
      rw [hstep, hb]
      simp
    · have hb : (f == ".DS_Store" || f == ".gitkeep") = false := by
        have ha : f ≠ ".DS_Store" := fun hx => h1 (Or.inl hx)
        have hc : f ≠ ".gitkeep" := fun hx => h1 (Or.inr hx)
        simp [ha, hc]
      have hstep : (renameStep lookup st f).2.length = st.2.length + 1 := by
        unfold renameStep
        rw [if_neg h1]
        by_cases h2 : startsWithDot f = true
        · rw [if_pos h2]; simp
        · rw [if_neg h2]; simp
      rw [hstep, hb]
      simp only [Bool.not_false, if_pos trivial, List.length_cons]
      omega

/-- C3 (amended): rows whose respondent id is missing (NaN) are
rejected from the lookup, reported as `missing_respondent_id`
anomalies, and the batch continues — provided no row has an
*unparseable* id.  An unparseable id raises inside the lookup build
and aborts the whole batch (see the counterexample), contrary to the
original claim. -/
theorem missing_rid_skipped_batch_continues (rows : List MappingRow) (files : List String)
    (h : ∀ r ∈ rows, isUnparseableRid r.rid = false) :
    build_spreadsheet_lookup rows
      = Except.ok (consAll [] (buildInserts rows),
          List.replicate (countNa rows) "missing_respondent_id") ∧
    buildInserts (rows.filter (fun r => r.rid != RidCell.na)) = buildInserts rows ∧
    (rename_files rows files).2.length
      = (files.filter (fun f => !(f == ".DS_Store" || f == ".gitkeep"))).length := by
  have hbuild := buildAux_ok_of_no_unparseable rows [] [] h
  rw [List.nil_append] at hbuild
  refine ⟨hbuild, buildInserts_filter_na rows, ?_⟩
  unfold rename_files
  rw [show build_spreadsheet_lookup rows = buildAux [] [] rows from rfl, hbuild]
  simp only
  rw [renameFold_length]
  simp

/-- A table whose first row has an unparseable respondent id (`"abc"`)
followed by a valid row declaring `a.pdf`. -/
def rowsC3 : List MappingRow :=
  [⟨RidCell.unparseable "abc", []⟩, ⟨RidCell.parsed 2, [Cell.str "a.pdf"]⟩]

/-- C3 is false as stated for *unparseable* (non-missing) respondent
ids: the `int(float(...))` conversion raises, the outer handler logs a
`process_error` anomaly, and the batch is aborted — `a.pdf`, declared
by a later valid row, is never processed and no file mapping is
produced. -/
theorem unparseable_rid_aborts_batch_cex :
    build_spreadsheet_lookup rowsC3
      = Except.error ([], "could not convert string to float: abc") ∧
    rename_files rowsC3 ["a.pdf"]
      = ([RenEvent.system_state,
          RenEvent.process_error "could not convert string to float: abc",
          RenEvent.system_state], []) :=
  ⟨rfl, rfl⟩

/-- A table with one NaN-id row and one valid row. -/
def rowsC3w : List MappingRow :=
  [⟨RidCell.na, []⟩, ⟨RidCell.parsed 7, [Cell.str "a.pdf"]⟩]

/-- Witness for the amended C3 at a concrete table and file list. -/
theorem missing_rid_skipped_witness :
    build_spreadsheet_lookup rowsC3w
      = Except.ok (consAll [] (buildInserts rowsC3w),
          List.replicate (countNa rowsC3w) "missing_respondent_id") ∧
    buildInserts (rowsC3w.filter (fun r => r.rid != RidCell.na)) = buildInserts rowsC3w ∧
    (rename_files rowsC3w ["a.pdf", ".DS_Store"]).2.length
      = ((["a.pdf", ".DS_Store"] : List String).filter
          (fun f => !(f == ".DS_Store" || f == ".gitkeep"))).length :=
  missing_rid_skipped_batch_continues rowsC3w ["a.pdf", ".DS_Store"] (by decide)

-- ## Filename normalization (surveymonkey_enricher.py /
-- validate_processing.py, `normalize_filename`)

/-- `SurveyMonkeyEnricher.normalize_filename` (identical in
`ProcessingValidator`): strip directory and extension, delete every
character outside `[a-zA-Z0-9]`, lowercase the remainder. -/
def normalize_filename (filename : String) : String :=
  ⟨((splitextStemList (basenameList filename.data)).filter isPyAlnum).map lowerChar⟩

/-- Lowercase ASCII alphanumeric test (`[a-z0-9]`). -/
def isLowerAlnum (c : Char) : Bool :=
  isPyDigit c || (97 ≤ c.toNat && c.toNat ≤ 122)

theorem toNat_ofNat_lower (n : Nat) (h1 : 97 ≤ n) (h2 : n ≤ 122) :
    (Char.ofNat n).toNat = n := by
  interval_cases n <;> decide

theorem lowerChar_alnum (c : Char) (h : isPyAlnum c = true) :
    isLowerAlnum (lowerChar c) = true := by
  simp only [isPyAlnum, Bool.or_eq_true, Bool.and_eq_true, decide_eq_true_eq] at h
  unfold lowerChar
  by_cases hu : (65 ≤ c.toNat && c.toNat ≤ 90) = true
  · rw [if_pos hu]
    simp only [Bool.and_eq_true, decide_eq_true_eq] at hu
    have := toNat_ofNat_lower (c.toNat + 32) (by omega) (by omega)
    simp only [isLowerAlnum, isPyDigit, Bool.or_eq_true, Bool.and_eq_true, decide_eq_true_eq, this]
    omega
  · rw [if_neg hu]
    simp only [Bool.and_eq_true, decide_eq_true_eq, not_and, not_le] at hu
    simp only [isLowerAlnum, isPyDigit, Bool.or_eq_true, Bool.and_eq_true, decide_eq_true_eq]
    omega

theorem lowerChar_fixed (c : Char) (h : isLowerAlnum c = true) : lowerChar c = c := by
  simp only [isLowerAlnum, isPyDigit, Bool.or_eq_true, Bool.and_eq_true, decide_eq_true_eq] at h
  unfold lowerChar
  rw [if_neg]
  simp only [Bool.and_eq_true, decide_eq_true_eq, not_and, not_le]
  omega

theorem isPyAlnum_of_lower (c : Char) (h : isLowerAlnum c = true) : isPyAlnum c = true := by
  simp only [isLowerAlnum, isPyDigit, Bool.or_eq_true, Bool.and_eq_true, decide_eq_true_eq] at h
  simp only [isPyAlnum, Bool.or_eq_true, Bool.and_eq_true, decide_eq_true_eq]
  omega

theorem lowerAlnum_ne_slash (c : Char) (h : isLowerAlnum c = true) : ¬(c = '/') := by
  intro hc
  rw [hc] at h
  exact absurd h (by decide)

theorem lowerAlnum_ne_dot (c : Char) (h : isLowerAlnum c = true) : ¬(c = '.') := by
  intro hc
  rw [hc] at h
  exact absurd h (by decide)

theorem takeWhile_all {p : Char → Bool} :
    ∀ l : List Char, (∀ c ∈ l, p c = true) → l.takeWhile p = l := by
  intro l
  induction l with
  | nil => intro _; rfl
  | cons c t ih =>
    intro h
    rw [List.takeWhile_cons, h c (by simp), if_pos rfl,
      ih (fun x hx => h x (by simp [hx]))]

theorem takeWhile_nil_of_all {p : Char → Bool} (l : List Char)
    (h : ∀ c ∈ l, p c = false) : l.takeWhile p = [] := by
  cases l with
  | nil => rfl
  | cons c t =>
    rw [List.takeWhile_cons, h c (by simp), if_neg (by simp)]

theorem basenameList_of_no_slash (l : List Char) (h : ∀ c ∈ l, ¬(c = '/')) :
    basenameList l = l := by
  unfold basenameList
  rw [takeWhile_all l.reverse (fun c hc => by
    simp only [decide_eq_true_eq]
    exact h c (List.mem_reverse.mp hc))]
  exact List.reverse_reverse l

theorem splitextStemList_of_no_dot (l : List Char) (h : ∀ c ∈ l, ¬(c = '.')) :
    splitextStemList l = l := by
  unfold splitextStemList
  have hlead : l.takeWhile (fun c => c = '.') = [] :=
    takeWhile_nil_of_all l (fun c hc => by
      simp only [decide_eq_false_iff_not]
      exact h c hc)
  rw [hlead]
  simp only [List.length_nil, List.drop_zero]
  have hafter : l.reverse.takeWhile (fun c => ¬(c = '.')) = l.reverse :=
    takeWhile_all l.reverse (fun c hc => by
      simp only [decide_eq_true_eq]
      exact h c (List.mem_reverse.mp hc))
  rw [hafter]
  simp

theorem map_id_of_fixed {f : Char → Char} :
    ∀ l : List Char, (∀ c ∈ l, f c = c) → l.map f = l := by
  intro l
  induction l with
  | nil => intro _; rfl
  | cons c t ih =>
    intro h
    rw [List.map_cons, h c (by simp), ih (fun x hx => h x (by simp [hx]))]

theorem filter_self_of_all {p : Char → Bool} :
    ∀ l : List Char, (∀ c ∈ l, p c = true) → l.filter p = l := by
  intro l
  induction l with
  | nil => intro _; rfl
  | cons c t ih =>
    intro h
    rw [List.filter_cons, if_pos (h c (by simp)), ih (fun x hx => h x (by simp [hx]))]

theorem normalize_filename_chars (s : String) :
    ∀ c ∈ (normalize_filename s).data, isLowerAlnum c = true := by
  intro c hc
  unfold normalize_filename at hc
  simp only at hc
  rw [List.mem_map] at hc
  obtain ⟨c', hc', rfl⟩ := hc
  exact lowerChar_alnum c' (List.of_mem_filter hc')

/-- C10: the filename normalization used for artifact re-matching is
idempotent, and every character of its output is a lowercase ASCII
alphanumeric. -/
theorem normalize_filename_idempotent_lower_alnum :
    (∀ s : String, normalize_filename (normalize_filename s) = normalize_filename s) ∧
    (∀ s : String, ∀ c ∈ (normalize_filename s).data, isLowerAlnum c = true) := by
  refine ⟨?_, normalize_filename_chars⟩
  intro s
  have hch := normalize_filename_chars s
  show (⟨((splitextStemList (basenameList (normalize_filename s).data)).filter
    isPyAlnum).map lowerChar⟩ : String) = normalize_filename s
  rw [basenameList_of_no_slash _ (fun c hc => lowerAlnum_ne_slash c (hch c hc))]
  rw [splitextStemList_of_no_dot _ (fun c hc => lowerAlnum_ne_dot c (hch c hc))]
  rw [filter_self_of_all _ (fun c hc => isPyAlnum_of_lower c (hch c hc))]
  rw [map_id_of_fixed _ (fun c hc => lowerChar_fixed c (hch c hc))]

-- ## TextExtractor (src/text_extractor.py)

/-- Configuration and external collaborators of a `TextExtractor` run:
the resolution lookup and renaming toggle used by the filename
utility, the two black-box extractors (`fitz` text extraction and
`python-docx` extraction with `oletools` macro detection; `none`
models a raised exception, `some` the returned text), and the
`force_reprocess` flag. -/
structure ExtractorConfig where
  lookup : List (String × Int × String)
  renamingEnabled : Bool
  pdfExtract : String → Option String
  docxExtract : String → Option (Bool × String)
  force : Bool

/-- Forensic-log events written during a `TextExtractor` run. -/
inductive XEvent
  | skip_existing_output (origPath : String) (outPath : String)
  | pdf_start (path : String)
  | pdf_success (path : String) (textLen : Nat)
  | pdf_error (path : String)
  | docx_start (path : String)
  | docx_success (path : String) (textLen : Nat)
  | docx_error (path : String)
  | vba_detected (path : String)
  | json_saved (path : String)
deriving DecidableEq

/-- Events logged through `log_anomaly` during extraction. -/
def isAnomalyXEvent : XEvent → Bool
  | XEvent.pdf_error _ => true
  | XEvent.docx_error _ => true
  | XEvent.vba_detected _ => true
  | _ => false

/-- `json_saved` events (one per written artifact). -/
def isSavedXEvent : XEvent → Bool
  | XEvent.json_saved _ => true
  | _ => false

/-- Modelled from the spec: `FilenamingUtility.get_output_filename`
(imported from `file_renamer` by `text_extractor.py`,
`whisper_service.py` and `youtube_service.py`, but absent from the
sources available here).  Per §3/§4.2/§6 of the specification it is
the pure canonical namer: with renaming enabled, a matched file maps
to `R<rid>-<slot><outExt>` and an unmatched one to
`NORESPID_<base with spaces as underscores><outExt>`; with the
environment toggle off it falls back to pass-through naming. -/
def get_output_filename (cfg : ExtractorConfig) (fname : String) (outExt : String) :
    String × Option (Int × String) :=
  if cfg.renamingEnabled then
    match dget cfg.lookup fname with
    | some p => ("R" ++ intStr p.1 ++ "-" ++ p.2 ++ outExt, some p)
    | none => ("NORESPID_" ++ pyReplace (pySplitext fname).1 " " "_" ++ outExt, none)
  else ((pySplitext fname).1 ++ outExt, none)

/-- The canonical output path of an input file (the output directory
prefix is constant and omitted: `os.path.join` with a fixed first
argument is injective in the second). -/
def outPath (cfg : ExtractorConfig) (fname : String) : String :=
  (get_output_filename cfg fname ".json").1

/-- `TextExtractor.sanitize_pdf`: logs `pdf_start`, then either the
extracted text with `pdf_success`, or `none` with a `pdf_error`
anomaly when the extractor raises. -/
def sanitize_pdf (cfg : ExtractorConfig) (path : String) :
    Option String × List XEvent :=
  match cfg.pdfExtract path with
  | some t => (some t, [XEvent.pdf_start path, XEvent.pdf_success path t.length])
  | none => (none, [XEvent.pdf_start path, XEvent.pdf_error path])

/-- `TextExtractor.sanitize_docx`: logs `docx_start`, a
`macro_detected` anomaly when VBA macros are present, then either the
text with `docx_success` or `none` with a `docx_error` anomaly. -/
def sanitize_docx (cfg : ExtractorConfig) (path : String) :
    Option String × List XEvent :=
  match cfg.docxExtract path with
  | some bt =>
    (some bt.2, [XEvent.docx_start path]
      ++ (if bt.1 then [XEvent.vba_detected path] else [])
      ++ [XEvent.docx_success path bt.2.length])
  | none => (none, [XEvent.docx_start path, XEvent.docx_error path])

/-- The skip guard of line 30: hidden files and excluded system
artifacts. -/
def isHiddenOrSystem (f : String) : Bool :=
  startsWithDot f || f == ".DS_Store" || f == ".gitkeep"

/-- The supported-extension guard of line 38. -/
def supportedExt (f : String) : Bool :=
  lowerStr (pySplitext f).2 == ".pdf" || lowerStr (pySplitext f).2 == ".docx"

/-- Dispatch to the sanitizer for the file's (lowercased) extension. -/
def extractWithEvents (cfg : ExtractorConfig) (fname : String) :
    Option String × List XEvent :=
  if lowerStr (pySplitext fname).2 = ".pdf" then sanitize_pdf cfg fname
  else sanitize_docx cfg fname

/-- The extractor outcome for a file (`none` = raised; `some ""` =
empty text). -/
def extractTextOf (cfg : ExtractorConfig) (fname : String) : Option String :=
  (extractWithEvents cfg fname).1

/-- Body of the per-file loop of `TextExtractor.process_files`: the
state is the set of existing output paths plus the event log.  A file
is skipped silently when hidden/excluded or of unsupported type;
skipped with a `skip_existing_output` event when its canonical output
exists and `force_reprocess` is off; otherwise extracted, and the
artifact is written (path recorded) only for non-empty text. -/
def processOne (cfg : ExtractorConfig) (st : List String × List XEvent)
    (fname : String) : List String × List XEvent :=
  if isHiddenOrSystem fname = true then st
  else if supportedExt fname = false then st
  else if st.1.contains (outPath cfg fname) = true ∧ cfg.force = false then
    (st.1, st.2 ++ [XEvent.skip_existing_output fname (outPath cfg fname)])
  else
    match extractWithEvents cfg fname with
    | (some t, sevs) =>
      if t ≠ "" then
        (outPath cfg fname :: st.1, st.2 ++ sevs ++ [XEvent.json_saved (outPath cfg fname)])
      else (st.1, st.2 ++ sevs)
    | (none, sevs) => (st.1, st.2 ++ sevs)

/-- Fold of `processOne` over a walk, from an arbitrary state. -/
def runFold (cfg : ExtractorConfig) (st : List String × List XEvent)
    (files : List String) : List String × List XEvent :=
  files.foldl (processOne cfg) st

/-- `TextExtractor.process_files` over a directory walk `files`, with
`fs0` the output paths existing before the run. -/
def tx_process_files (cfg : ExtractorConfig) (fs0 : List String)
    (files : List String) : List String × List XEvent :=
  runFold cfg (fs0, []) files

theorem sanitize_pdf_no_saved (cfg : ExtractorConfig) (path : String) :
    ∀ e ∈ (sanitize_pdf cfg path).2, isSavedXEvent e = false := by
  unfold sanitize_pdf
  cases cfg.pdfExtract path with
  | some t => intro e he; simp at he; rcases he with h | h <;> simp [h, isSavedXEvent]
  | none => intro e he; simp at he; rcases he with h | h <;> simp [h, isSavedXEvent]

theorem sanitize_docx_no_saved (cfg : ExtractorConfig) (path : String) :
    ∀ e ∈ (sanitize_docx cfg path).2, isSavedXEvent e = false := by
  unfold sanitize_docx
  cases cfg.docxExtract path with
  | some bt =>
    intro e he
    simp at he
    rcases he with h | h | h
    · simp [h, isSavedXEvent]
    · rcases hb : bt.1 with _ | _ <;> rw [hb] at h <;> simp at h
      simp [h, isSavedXEvent]
    · simp [h, isSavedXEvent]
  | none => intro e he; simp at he; rcases he with h | h <;> simp [h, isSavedXEvent]

theorem extractWithEvents_no_saved (cfg : ExtractorConfig) (path : String) :
    ∀ e ∈ (extractWithEvents cfg path).2, isSavedXEvent e = false := by
  unfold extractWithEvents
  by_cases h : lowerStr (pySplitext path).2 = ".pdf"
  · rw [if_pos h]; exact sanitize_pdf_no_saved cfg path
  · rw [if_neg h]; exact sanitize_docx_no_saved cfg path

theorem processOne_evs (cfg : ExtractorConfig) (fs : List String)
    (evs : List XEvent) (f : String) :
    processOne cfg (fs, evs) f
      = ((processOne cfg (fs, []) f).1, evs ++ (processOne cfg (fs, []) f).2) := by
  unfold processOne
  by_cases h1 : isHiddenOrSystem f = true
  · simp [h1]
  · rw [if_neg h1, if_neg h1]
    by_cases h2 : supportedExt f = false
    · simp [h2]
    · rw [if_neg h2, if_neg h2]
      by_cases h3 : fs.contains (outPath cfg f) = true ∧ cfg.force = false
      · simp only [if_pos h3]
        simp
      · simp only [if_neg h3]
        rcases hx : extractWithEvents cfg f with ⟨topt, sevs⟩
        cases topt with
        | some t =>
          by_cases ht : t ≠ ""
          · simp [ht]
          · simp [ht]
        | none => simp

theorem processOne_mono (cfg : ExtractorConfig) (st : List String × List XEvent)
    (f : String) (p : String) (hp : p ∈ st.1) : p ∈ (processOne cfg st f).1 := by
  unfold processOne
  by_cases h1 : isHiddenOrSystem f = true
  · simpa [h1] using hp
  · rw [if_neg h1]
    by_cases h2 : supportedExt f = false
    · simpa [h2] using hp
    · rw [if_neg h2]
      by_cases h3 : st.1.contains (outPath cfg f) = true ∧ cfg.force = false
      · rw [if_pos h3]
        exact hp
      · rw [if_neg h3]
        rcases hx : extractWithEvents cfg f with ⟨topt, sevs⟩
        cases topt with
        | some t =>
          by_cases ht : t ≠ ""
          · simp only [if_pos ht]
            exact List.mem_cons_of_mem _ hp
          · simpa [ht] using hp
        | none => simpa using hp

theorem runFold_mono (cfg : ExtractorConfig) (files : List String) :
    ∀ (st : List String × List XEvent) (p : String), p ∈ st.1 →
    p ∈ (runFold cfg st files).1 := by
  induction files with
  | nil => intro st p hp; exact hp
  | cons f rest ih =>
    intro st p hp
    exact ih (processOne cfg st f) p (processOne_mono cfg st f p hp)

/-- A file is inert on a state when re-processing it cannot write an
artifact: it is excluded, unsupported, already has its output, or its
extraction fails or yields empty text. -/
def inertFile (cfg : ExtractorConfig) (fs : List String) (f : String) : Prop :=
  isHiddenOrSystem f = true ∨ supportedExt f = false ∨
  fs.contains (outPath cfg f) = true ∨
  extractTextOf cfg f = none ∨ extractTextOf cfg f = some ""

theorem inertFile_mono (cfg : ExtractorConfig) (fs fs' : List String) (f : String)
    (hsub : ∀ p, p ∈ fs → p ∈ fs') (h : inertFile cfg fs f) : inertFile cfg fs' f := by
  rcases h with h | h | h | h | h
  · exact Or.inl h
  · exact Or.inr (Or.inl h)
  · refine Or.inr (Or.inr (Or.inl ?_))
    have hm : outPath cfg f ∈ fs := by simpa using h
    simpa using hsub _ hm
  · exact Or.inr (Or.inr (Or.inr (Or.inl h)))
  · exact Or.inr (Or.inr (Or.inr (Or.inr h)))

theorem processOne_establishes_inert (cfg : ExtractorConfig)
    (st : List String × List XEvent) (f : String) :
    inertFile cfg (processOne cfg st f).1 f := by
  unfold processOne
  by_cases h1 : isHiddenOrSystem f = true
  · rw [if_pos h1]; exact Or.inl h1
  · rw [if_neg h1]
    by_cases h2 : supportedExt f = false
    · rw [if_pos h2]; exact Or.inr (Or.inl h2)
    · rw [if_neg h2]
      by_cases h3 : st.1.contains (outPath cfg f) = true ∧ cfg.force = false
      · rw [if_pos h3]
        exact Or.inr (Or.inr (Or.inl h3.1))
      · rw [if_neg h3]
        rcases hx : extractWithEvents cfg f with ⟨topt, sevs⟩
        have htx : extractTextOf cfg f = topt := by
          unfold extractTextOf; rw [hx]
        cases topt with
        | some t =>
          by_cases ht : t ≠ ""
          · simp only [if_pos ht]
            refine Or.inr (Or.inr (Or.inl ?_))
            simp
          · push_neg at ht
            simp only [ht, ne_eq, not_true_eq_false, if_neg, if_false]
            exact Or.inr (Or.inr (Or.inr (Or.inr (by rw [htx, ht]))))
        | none =>
          exact Or.inr (Or.inr (Or.inr (Or.inl htx)))

theorem extract_none_has_anomaly (cfg : ExtractorConfig) (f : String)
    (sevs : List XEvent) (hx : extractWithEvents cfg f = (none, sevs)) :
    ∃ e ∈ sevs, isAnomalyXEvent e = true := by
  unfold extractWithEvents at hx
  by_cases h : lowerStr (pySplitext f).2 = ".pdf"
  · rw [if_pos h] at hx
    unfold sanitize_pdf at hx
    cases hp : cfg.pdfExtract f with
    | some t => rw [hp] at hx; simp at hx
    | none =>
      rw [hp] at hx
      simp only [Prod.mk.injEq] at hx
      refine ⟨XEvent.pdf_error f, ?_, rfl⟩
      rw [← hx.2]
      simp
  · rw [if_neg h] at hx
    unfold sanitize_docx at hx
    cases hp : cfg.docxExtract f with
    | some bt => rw [hp] at hx; simp at hx
    | none =>
      rw [hp] at hx
      simp only [Prod.mk.injEq] at hx
      refine ⟨XEvent.docx_error f, ?_, rfl⟩
      rw [← hx.2]
      simp

theorem inert_step (cfg : ExtractorConfig) (hforce : cfg.force = false)
    (st : List String × List XEvent) (f : String)
    (hin : inertFile cfg st.1 f) :
    ∃ sevs, processOne cfg st f = (st.1, st.2 ++ sevs) ∧
      ∀ e ∈ sevs, isSavedXEvent e = false := by
  unfold processOne
  by_cases h1 : isHiddenOrSystem f = true
  · exact ⟨[], by rw [if_pos h1]; simp, by simp⟩
  · rw [if_neg h1]
    by_cases h2 : supportedExt f = false
    · exact ⟨[], by rw [if_pos h2]; simp, by simp⟩
    · rw [if_neg h2]
      by_cases h3 : st.1.contains (outPath cfg f) = true ∧ cfg.force = false
      · refine ⟨[XEvent.skip_existing_output f (outPath cfg f)], by rw [if_pos h3], ?_⟩
        intro e he
        simp at he
        simp [he, isSavedXEvent]
      · rw [if_neg h3]
        have hnc : st.1.contains (outPath cfg f) = false := by
          rcases hc : st.1.contains (outPath cfg f) with _ | _
          · rfl
          · exact absurd ⟨hc, hforce⟩ h3
        rcases hx : extractWithEvents cfg f with ⟨topt, sevs⟩
        have htx : extractTextOf cfg f = topt := by
          unfold extractTextOf; rw [hx]
        have hnosave : ∀ e ∈ sevs, isSavedXEvent e = false := by
          have := extractWithEvents_no_saved cfg f
          rw [hx] at this
          exact this
        cases topt with
        | some t =>
          have ht : t = "" := by
            rcases hin with h | h | h | h | h
            · exact absurd h h1
            · exact absurd h h2
            · rw [hnc] at h; exact absurd h (by simp)
            · rw [htx] at h; simp at h
            · have := htx.symm.trans h
              simpa using this
          simp only [ht, ne_eq, not_true_eq_false, if_false]
          exact ⟨sevs, rfl, hnosave⟩
        | none => exact ⟨sevs, rfl, hnosave⟩

theorem runFold_all_inert (cfg : ExtractorConfig) (files : List String) :
    ∀ (st : List String × List XEvent), ∀ f ∈ files,
    inertFile cfg (runFold cfg st files).1 f := by
  induction files with
  | nil => intro st f hf; simp at hf
  | cons g rest ih =>
    intro st f hf
    have hstep : runFold cfg st (g :: rest) = runFold cfg (processOne cfg st g) rest := rfl
    rw [hstep]
    rcases List.mem_cons.mp hf with h | h
    · subst h
      apply inertFile_mono cfg (processOne cfg st f).1 _ f
        (fun p hp => runFold_mono cfg rest _ p hp)
      exact processOne_establishes_inert cfg st f
    · exact ih (processOne cfg st g) f h

theorem runFold_inert_run (cfg : ExtractorConfig) (hforce : cfg.force = false)
    (files : List String) :
    ∀ (st : List String × List XEvent),
    (∀ f ∈ files, inertFile cfg st.1 f) →
    (runFold cfg st files).1 = st.1 ∧
    ∃ evs, (runFold cfg st files).2 = st.2 ++ evs ∧
      ∀ e ∈ evs, isSavedXEvent e = false := by
  induction files with
  | nil => intro st _; exact ⟨rfl, [], by simp [runFold], by simp⟩
  | cons g rest ih =>
    intro st hin
    obtain ⟨sevs, hstep, hnos⟩ :=
      inert_step cfg hforce st g (hin g (List.mem_cons_self _ _))
    have hrw : runFold cfg st (g :: rest) = runFold cfg (st.1, st.2 ++ sevs) rest := by
      show runFold cfg (processOne cfg st g) rest = _
      rw [hstep]
    rw [hrw]
    have hin' : ∀ f ∈ rest, inertFile cfg (st.1, st.2 ++ sevs).1 f :=
      fun f hf => hin f (List.mem_cons_of_mem g hf)
    obtain ⟨h1, evs', h2, h3⟩ := ih (st.1, st.2 ++ sevs) hin'
    refine ⟨h1, sevs ++ evs', ?_, ?_⟩
    · rw [h2]
      simp
    · intro e he
      rcases List.mem_append.mp he with h | h
      · exact hnos e h
      · exact h3 e h

/-- C4: when an input file's canonical output already exists and
force-reprocess is off, the orchestrator logs exactly one
`skip_existing_output` event and writes nothing (first conjunct, for
files that reach the idempotency check, i.e. non-hidden supported
files, per the §4.4 state-machine order); consequently a second run
of `TextExtractor.process_files` over the same walk starting from the
first run's outputs adds no artifact and logs no `json_saved` event
(second conjunct). -/
theorem extraction_idempotent (cfg : ExtractorConfig) (hforce : cfg.force = false) :
    (∀ (fs : List String) (evs : List XEvent) (f : String),
      isHiddenOrSystem f = false → supportedExt f = true →
      fs.contains (outPath cfg f) = true →
      processOne cfg (fs, evs) f
        = (fs, evs ++ [XEvent.skip_existing_output f (outPath cfg f)])) ∧
    (∀ (fs0 files : List String),
      (tx_process_files cfg (tx_process_files cfg fs0 files).1 files).1
        = (tx_process_files cfg fs0 files).1 ∧
      ∀ e ∈ (tx_process_files cfg (tx_process_files cfg fs0 files).1 files).2,
        isSavedXEvent e = false) := by
  constructor
  · intro fs evs f hh hs hc
    unfold processOne
    rw [if_neg (by rw [hh]; simp), if_neg (by rw [hs]; simp), if_pos ⟨hc, hforce⟩]
  · intro fs0 files
    have hall : ∀ f ∈ files, inertFile cfg (tx_process_files cfg fs0 files).1 f :=
      runFold_all_inert cfg files (fs0, [])
    obtain ⟨h1, evs, h2, h3⟩ :=
      runFold_inert_run cfg hforce files ((tx_process_files cfg fs0 files).1, []) hall
    refine ⟨h1, ?_⟩
    intro e he
    show isSavedXEvent e = false
    apply h3
    have : (tx_process_files cfg (tx_process_files cfg fs0 files).1 files).2 = [] ++ evs := h2
    rw [this] at he
    simpa using he

/-- A concrete extractor configuration: `g.pdf` is mapped to
respondent 42, slot 1; the PDF extractor returns `"hello"`. -/
def cfgC4w : ExtractorConfig :=
  { lookup := [("g.pdf", (42, "1"))], renamingEnabled := true,
    pdfExtract := fun _ => some "hello", docxExtract := fun _ => none,
    force := false }

/-- Witness for C4: with `R42-1.json` already present, re-processing
`g.pdf` only logs the skip event; and the second run over the same
walk changes nothing. -/
theorem extraction_idempotent_witness :
    processOne cfgC4w (["R42-1.json"], []) "g.pdf"
      = (["R42-1.json"], [] ++ [XEvent.skip_existing_output "g.pdf" (outPath cfgC4w "g.pdf")]) ∧
    (tx_process_files cfgC4w (tx_process_files cfgC4w [] ["g.pdf"]).1 ["g.pdf"]).1
      = (tx_process_files cfgC4w [] ["g.pdf"]).1 :=
  ⟨(extraction_idempotent cfgC4w rfl).1 ["R42-1.json"] [] "g.pdf"
      (by decide) (by decide) (by decide),
   ((extraction_idempotent cfgC4w rfl).2 [] ["g.pdf"]).1⟩

-- ## Claim C5

theorem runFold_evs (cfg : ExtractorConfig) (files : List String) :
    ∀ (fs : List String) (evs : List XEvent),
    runFold cfg (fs, evs) files
      = ((runFold cfg (fs, []) files).1, evs ++ (runFold cfg (fs, []) files).2) := by
  induction files with
  | nil => intro fs evs; simp [runFold]
  | cons f rest ih =>
    intro fs evs
    have hstep : runFold cfg (fs, evs) (f :: rest)
        = runFold cfg (processOne cfg (fs, evs) f) rest := rfl
    have hstep0 : runFold cfg (fs, []) (f :: rest)
        = runFold cfg (processOne cfg (fs, []) f) rest := rfl
    rw [hstep, hstep0, processOne_evs cfg fs evs f]
    rcases hp : processOne cfg (fs, []) f with ⟨fs1, evs1⟩
    rw [ih fs1 (evs ++ evs1), ih fs1 evs1]
    simp

/-- C5 (amended): for a supported, non-hidden input file that reaches
extraction, an extractor exception logs an Anomaly; in both failure
modes (exception or empty text) no artifact is written and no
`json_saved` event is logged for the file, and the rest of the batch
runs exactly as it would have without the failing file.  (Empty text,
unlike the original claim, logs a success event and *no* Anomaly —
see the counterexample.) -/
theorem extractor_failure_nonfatal (cfg : ExtractorConfig) (f : String)
    (fs0 : List String) (rest : List String)
    (hh : isHiddenOrSystem f = false) (hs : supportedExt f = true)
    (hskip : ¬(fs0.contains (outPath cfg f) = true ∧ cfg.force = false))
    (hfail : extractTextOf cfg f = none ∨ extractTextOf cfg f = some "") :
    ∃ sevs : List XEvent,
      processOne cfg (fs0, []) f = (fs0, sevs) ∧
      (extractTextOf cfg f = none → ∃ e ∈ sevs, isAnomalyXEvent e = true) ∧
      (∀ e ∈ sevs, isSavedXEvent e = false) ∧
      tx_process_files cfg fs0 (f :: rest)
        = ((tx_process_files cfg fs0 rest).1, sevs ++ (tx_process_files cfg fs0 rest).2) := by
  rcases hx : extractWithEvents cfg f with ⟨topt, sevs⟩
  have htx : extractTextOf cfg f = topt := by
    unfold extractTextOf; rw [hx]
  have hnosave : ∀ e ∈ sevs, isSavedXEvent e = false := by
    have := extractWithEvents_no_saved cfg f
    rw [hx] at this
    exact this
  have hbody : processOne cfg (fs0, []) f = (fs0, sevs) := by
    unfold processOne
    rw [if_neg (by rw [hh]; simp), if_neg (by rw [hs]; simp)]
    rw [if_neg (by simpa using hskip), hx]
    cases topt with
    | some t =>
      have ht : t = "" := by
        rcases hfail with h | h
        · rw [htx] at h; simp at h
        · have := htx.symm.trans h
          simpa using this
      simp [ht]
    | none => simp
  refine ⟨sevs, hbody, ?_, hnosave, ?_⟩
  · intro hnone
    rw [htx] at hnone
    subst hnone
    exact extract_none_has_anomaly cfg f sevs hx
  · have hstep : tx_process_files cfg fs0 (f :: rest)
        = runFold cfg (processOne cfg (fs0, []) f) rest := rfl
    rw [hstep, hbody, runFold_evs]
    rfl

/-- A configuration whose PDF extractor raises on every file. -/
def cfgC5w : ExtractorConfig :=
  { lookup := [], renamingEnabled := true,
    pdfExtract := fun _ => none, docxExtract := fun _ => none,
    force := false }

/-- Witness for the amended C5: a raising extractor on `f.pdf`. -/
theorem extractor_failure_nonfatal_witness :
    ∃ sevs : List XEvent,
      processOne cfgC5w ([], []) "f.pdf" = ([], sevs) ∧
      (extractTextOf cfgC5w "f.pdf" = none → ∃ e ∈ sevs, isAnomalyXEvent e = true) ∧
      (∀ e ∈ sevs, isSavedXEvent e = false) ∧
      tx_process_files cfgC5w [] ["f.pdf"]
        = ((tx_process_files cfgC5w [] []).1, sevs ++ (tx_process_files cfgC5w [] []).2) :=
  extractor_failure_nonfatal cfgC5w "f.pdf" [] []
    (by decide) (by decide) (by decide) (Or.inl rfl)

/-- A configuration whose PDF extractor returns empty text. -/
def cfgC5 : ExtractorConfig :=
  { lookup := [], renamingEnabled := true,
    pdfExtract := fun _ => some "", docxExtract := fun _ => none,
    force := false }

/-- C5 is false as stated for empty extracted text: processing `f.pdf`
whose extractor returns `""` writes no artifact but logs a
`pdf_success` event and *no* Anomaly. -/
theorem empty_text_no_anomaly_cex :
    tx_process_files cfgC5 [] ["f.pdf"]
      = ([], [XEvent.pdf_start "f.pdf", XEvent.pdf_success "f.pdf" 0]) ∧
    (∀ e ∈ (tx_process_files cfgC5 [] ["f.pdf"]).2, isAnomalyXEvent e = false) :=
  ⟨rfl, by decide⟩

-- ## ForensicLogger (src/forensic_logger.py)

/-- Environment of a `ForensicLogger` call: the fallible OS/psutil
collaborators.  `stat` returns `(st_size, st_mode, mtime-iso)` or
`none` when `os.stat` raises; `fileHashes` the `(sha256, md5)` pair of
the single-pass chunked read or `none` when the read raises;
`sysSample` the `(cpu%, mem%, open_files)` counters or `none` when
`psutil` raises; `procSample` the process info for a pid or `none`. -/
structure LoggerEnv where
  stat : String → Option (Nat × Nat × String)
  fileHashes : String → Option (String × String)
  sysSample : Option (Nat × Nat × Nat)
  procSample : Int → Option String

/-- One line appended to the session log: an info/warning record with
a structured payload, or an error-level plain message written by the
`except` handlers. -/
inductive LogRecord
  | infoFileEvent (etype : String) (path : String) (size : Nat) (mode : Nat)
      (mtime : String) (hashes : Option (String × String))
      (details : List (String × String))
  | infoSystemState (cpu : Nat) (mem : Nat) (openFiles : Nat)
  | infoProcessExec (command : String) (pid : Int) (returnCode : Int) (info : String)
  | warningAnomaly (atype : String) (details : List (String × String))
      (cpu : Nat) (mem : Nat) (openFiles : Nat)
  | errorLine (msg : String)
deriving DecidableEq

/-- `ForensicLogger.log_file_event`: stat the file, hash it, and
append one info record; any exception is caught and an error-level
line is appended instead. -/
def log_file_event (env : LoggerEnv) (etype path : String)
    (details : List (String × String)) : LogRecord :=
  match env.stat path, env.fileHashes path with
  | some st, some h =>
    LogRecord.infoFileEvent etype path st.1 st.2.1 st.2.2 (some h) details
  | _, _ => LogRecord.errorLine "Error logging file event"

/-- `ForensicLogger.log_system_state`. -/
def log_system_state (env : LoggerEnv) : LogRecord :=
  match env.sysSample with
  | some s => LogRecord.infoSystemState s.1 s.2.1 s.2.2
  | none => LogRecord.errorLine "Error logging system state"

/-- `ForensicLogger.log_anomaly` (samples the system state for the
payload). -/
def log_anomaly (env : LoggerEnv) (atype : String)
    (details : List (String × String)) : LogRecord :=
  match env.sysSample with
  | some s => LogRecord.warningAnomaly atype details s.1 s.2.1 s.2.2
  | none => LogRecord.errorLine "Error logging anomaly"

/-- `ForensicLogger.log_process_execution`. -/
def log_process_execution (env : LoggerEnv) (command : String)
    (pid returnCode : Int) : LogRecord :=
  match env.procSample pid with
  | some info => LogRecord.infoProcessExec command pid returnCode info
  | none => LogRecord.errorLine "Error logging process execution"

/-- The `hashes` field of a record, when the record is a file event
(`some none` would be a file event whose hashes are null). -/
def hashesField : LogRecord → Option (Option (String × String))
  | LogRecord.infoFileEvent _ _ _ _ _ h _ => some h
  | _ => none

/-- Is the record an error-level line from an `except` handler? -/
def isErrorRecord : LogRecord → Bool
  | LogRecord.errorLine _ => true
  | _ => false

/-- C6 (amended): every logging operation is total — it always appends
exactly one record and never propagates an exception — but an internal
failure is recorded as an error-level *message line*, not as a
degraded file event with `hashes: null`: a file-event record always
carries computed hashes (its `hashes` field is never null), and when
`stat`/hashing (resp. the psutil sampling) raises, the appended record
is the error line. -/
theorem logger_never_throws_error_record :
    (∀ (env : LoggerEnv) (etype path : String) (details : List (String × String)),
      hashesField (log_file_event env etype path details) ≠ some none) ∧
    (∀ (env : LoggerEnv) (etype path : String) (details : List (String × String)),
      (env.stat path = none ∨ env.fileHashes path = none) →
      isErrorRecord (log_file_event env etype path details) = true) ∧
    (∀ (env : LoggerEnv), env.sysSample = none →
      isErrorRecord (log_system_state env) = true) ∧
    (∀ (env : LoggerEnv) (atype : String) (details : List (String × String)),
      env.sysSample = none → isErrorRecord (log_anomaly env atype details) = true) ∧
    (∀ (env : LoggerEnv) (command : String) (pid returnCode : Int),
      env.procSample pid = none →
      isErrorRecord (log_process_execution env command pid returnCode) = true) := by
  refine ⟨?_, ?_, ?_, ?_, ?_⟩
  · intro env etype path details
    unfold log_file_event
    cases hs : env.stat path with
    | some st =>
      cases hh : env.fileHashes path with
      | some h => simp [hashesField]
      | none => simp [hashesField]
    | none => simp [hashesField]
  · intro env etype path details hfail
    unfold log_file_event
    rcases hfail with h | h
    · rw [h]
      cases env.fileHashes path <;> simp [isErrorRecord]
    · rw [h]
      cases env.stat path <;> simp [isErrorRecord]
  · intro env h
    unfold log_system_state
    rw [h]
    simp [isErrorRecord]
  · intro env atype details h
    unfold log_anomaly
    rw [h]
    simp [isErrorRecord]
  · intro env command pid returnCode h
    unfold log_process_execution
    rw [h]
    simp [isErrorRecord]

/-- An environment where every collaborator raises (file vanished,
psutil unavailable). -/
def envC6 : LoggerEnv :=
  { stat := fun _ => none, fileHashes := fun _ => none,
    sysSample := none, procSample := fun _ => none }

/-- Witness for the amended C6 at a failing environment. -/
theorem logger_error_record_witness :
    hashesField (log_file_event envC6 "file_renamed" "/data/x.pdf" []) ≠ some none ∧
    isErrorRecord (log_file_event envC6 "file_renamed" "/data/x.pdf" []) = true ∧
    isErrorRecord (log_anomaly envC6 "missing_respondent_id" []) = true :=
  ⟨logger_never_throws_error_record.1 envC6 "file_renamed" "/data/x.pdf" [],
   logger_never_throws_error_record.2.1 envC6 "file_renamed" "/data/x.pdf" [] (Or.inl rfl),
   logger_never_throws_error_record.2.2.2.1 envC6 "missing_respondent_id" [] rfl⟩

/-- C6 is false as stated where it promises a "degraded event with
hashes: null": when the target file cannot be read, `log_file_event`
appends a plain error-level message; no file-event record (degraded or
otherwise, with any hashes field, null included) is written. -/
theorem logger_failure_no_degraded_event_cex :
    log_file_event envC6 "file_renamed" "/data/x.pdf" []
      = LogRecord.errorLine "Error logging file event" ∧
    hashesField (log_file_event envC6 "file_renamed" "/data/x.pdf" []) = none :=
  ⟨rfl, rfl⟩

-- ## SurveyMonkeyEnricher (src/surveymonkey_enricher.py)

/-- A JSON value as stored in an Artifact: string, integer-precision
number, boolean, the NaN float (which `data['respondent_id'] = nan`
can store), a raw pandas Timestamp (carried by its `str()`), or any
other raw value carried by its `str()`. -/
inductive JVal
  | s (v : String)
  | i (v : Int)
  | b (v : Bool)
  | nanV
  | ts (shown : String)
  | blob (shown : String)
deriving DecidableEq

/-- The raw value stored by `data['respondent_id'] = respondent_id`
(no coercion in the source). -/
def cellRaw : Cell → JVal
  | Cell.na => JVal.nanV
  | Cell.str v => JVal.s v
  | Cell.num v => JVal.i v
  | Cell.boolean v => JVal.b v
  | Cell.date shown _ => JVal.ts shown
  | Cell.other shown => JVal.blob shown

/-- The metadata coercion of the merge loop: Timestamps/Periods become
their `strftime('%Y-%m-%d')` strings, other non-primitive values their
`str()`, primitives are kept. -/
def coerceCell : Cell → JVal
  | Cell.na => JVal.nanV
  | Cell.str v => JVal.s v
  | Cell.num v => JVal.i v
  | Cell.boolean v => JVal.b v
  | Cell.date _ iso => JVal.s iso
  | Cell.other shown => JVal.s shown

/-- `pd.notna`. -/
def cellNotna : Cell → Bool
  | Cell.na => false
  | _ => true

/-- The `== ''` comparison (only string cells equal `''`). -/
def cellIsEmptyStr : Cell → Bool
  | Cell.str v => v == ""
  | _ => false

/-- Python falsiness of a cell value (`not respondent_id`).  NaN is
*truthy* in Python, so a NaN cell passes the guard. -/
def cellFalsy : Cell → Bool
  | Cell.num n => n == 0
  | Cell.str v => v == ""
  | Cell.boolean bb => !bb
  | _ => false

/-- `str(value)` of a cell. -/
def pyStrCell : Cell → String
  | Cell.na => "nan"
  | Cell.str v => v
  | Cell.num n => intStr n
  | Cell.boolean true => "True"
  | Cell.boolean false => "False"
  | Cell.date shown _ => shown
  | Cell.other shown => shown

/-- Python truthiness of a JSON value (`if orig_filename:`). -/
def jvalTruthy : JVal → Bool
  | JVal.s v => v != ""
  | JVal.i n => n != 0
  | JVal.b bb => bb
  | _ => true

/-- Lookup in a JSON object / pandas row (keys are unique). -/
def objGet {α : Type} : List (String × α) → String → Option α
  | [], _ => none
  | p :: t, k => if p.1 = k then some p.2 else objGet t k

/-- CPython dict assignment `d[k] = v` where key order matters:
update the existing binding in place, or append the new key. -/
def dinsert {α : Type} : List (String × α) → String → α → List (String × α)
  | [], k, v => [(k, v)]
  | p :: t, k, v => if p.1 = k then (k, v) :: t else p :: dinsert t k v

/-- The respondent id of an enrichment row:
`row.get('respondent_id', row.get('Respondent ID', None))`, then the
falsy guard `if not respondent_id: continue`. -/
def ridOf (row : List (String × Cell)) : Option Cell :=
  match (objGet row "respondent_id").orElse (fun _ => objGet row "Respondent ID") with
  | none => none
  | some c => if cellFalsy c then none else some c

/-- The file-column test of lines 225-227: `re.match` anchors at the
start, and the second pattern `r'file'` subsumes the first, so a
column is a file column iff its lowercase form starts with `file`. -/
def isFileCol (c : String) : Bool := "file".data.isPrefixOf (lowerStr c).data

/-- The metadata dict of one row: the selected columns present in the
sheet whose cell is non-NaN and not `''`, raw values, in selection
order (dict insertion order). -/
def buildMetadata (columns selected : List String) (row : List (String × Cell)) :
    List (String × Cell) :=
  selected.foldl (fun m col =>
    if columns.contains col then
      match objGet row col with
      | some c => if cellNotna c && !(cellIsEmptyStr c) then dinsert m col c else m
      | none => m
    else m) []

/-- The in-place merge of lines 273-282: set `respondent_id` to the
raw row value, then write each metadata column with its coerced
value. -/
def mergeInto (a : List (String × JVal)) (ridCell : Cell)
    (metadata : List (String × Cell)) : List (String × JVal) :=
  metadata.foldl (fun o kv => dinsert o kv.1 (coerceCell kv.2))
    (dinsert a "respondent_id" (cellRaw ridCell))

/-- The normalized-filename index of lines 204-221: walk the artifacts
in order and assign `dict[norm] = path` (so a later artifact
overwrites an earlier one on a collision, and nothing is logged for
the collision).  A truthy non-string `filename` field raises inside
the `try` and is logged as `json_read_error`; a missing or empty
`filename` is skipped silently. -/
def jsonDictStep (de : List (String × String) × List String)
    (art : String × List (String × JVal)) :
    List (String × String) × List String :=
  match objGet art.2 "filename" with
  | some (JVal.s fn) =>
    if fn ≠ "" then ((normalize_filename fn, art.1) :: de.1, de.2) else de
  | some v => if jvalTruthy v then (de.1, de.2 ++ ["json_read_error"]) else de
  | none => de

def buildJsonDict (store : List (String × List (String × JVal))) :
    List (String × String) × List String :=
  store.foldl jsonDictStep ([], [])

/-- Update every store entry at `path` (paths are unique in a real
walk) by re-reading, merging and writing back. -/
def storeUpdate (st : List (String × List (String × JVal))) (path : String)
    (f : List (String × JVal) → List (String × JVal)) :
    List (String × List (String × JVal)) :=
  st.map (fun e => if e.1 = path then (e.1, f e.2) else e)

/-- The merge triggered by one populated file slot of a row: look up
the normalized declared name in the index; on a hit, the matched
artifact is merged with the row's id and metadata. -/
def slotAction (dict : List (String × String)) (row : List (String × Cell))
    (ridCell : Cell) (metadata : List (String × Cell)) (fcol : String) :
    Option (String × Cell × List (String × Cell)) :=
  match objGet row fcol with
  | some c =>
    if cellNotna c && !(cellIsEmptyStr c) then
      match dget dict (normalize_filename (pyStrCell c)) with
      | some path => some (path, ridCell, metadata)
      | none => none
    else none
  | none => none

/-- Apply one merge operation to the artifact store. -/
def applyOp (st : List (String × List (String × JVal)))
    (op : String × Cell × List (String × Cell)) :
    List (String × List (String × JVal)) :=
  storeUpdate st op.1 (fun a => mergeInto a op.2.1 op.2.2)

/-- The mapping table and column selection of an enrichment run.
`selectedCols` is the already-determined allow-list (either the
preconfigured one, `['respondent_id', 'Respondent ID'] ++ columns`, or
the interactive selection — the single-shot prompt is I/O and is
modelled by its outcome). -/
structure EnrichConfig where
  columns : List String
  rows : List (List (String × Cell))
  selectedCols : List String

/-- Process one file column of a row: apply the merge when the slot
matches an artifact, otherwise leave the store unchanged. -/
def applySlot (dict : List (String × String)) (row : List (String × Cell))
    (ridCell : Cell) (md : List (String × Cell))
    (st2 : List (String × List (String × JVal))) (fcol : String) :
    List (String × List (String × JVal)) :=
  match slotAction dict row ridCell md fcol with
  | some op => applyOp st2 op
  | none => st2

/-- Process one mapping row: skip rows with a falsy respondent id,
otherwise walk the file columns. -/
def applyRow (cfg : EnrichConfig) (dict : List (String × String))
    (st : List (String × List (String × JVal))) (row : List (String × Cell)) :
    List (String × List (String × JVal)) :=
  match ridOf row with
  | none => st
  | some ridCell =>
    (cfg.columns.filter isFileCol).foldl
      (applySlot dict row ridCell (buildMetadata cfg.columns cfg.selectedCols row)) st

/-- `SurveyMonkeyEnricher.enrich_json_files` (lines 244-297): build
the normalized index once, then for each row with a truthy respondent
id and each populated file column, merge into the matched artifact in
place. -/
def enrich_json_files (cfg : EnrichConfig)
    (store : List (String × List (String × JVal))) :
    List (String × List (String × JVal)) :=
  cfg.rows.foldl (applyRow cfg (buildJsonDict store).1) store

/-- The merge operations of one row, in execution order. -/
def rowOps (cfg : EnrichConfig) (dict : List (String × String))
    (row : List (String × Cell)) : List (String × Cell × List (String × Cell)) :=
  match ridOf row with
  | none => []
  | some ridCell =>
    (cfg.columns.filter isFileCol).filterMap
      (slotAction dict row ridCell (buildMetadata cfg.columns cfg.selectedCols row))

/-- All merge operations of a run, in execution order. -/
def allOps (cfg : EnrichConfig) (dict : List (String × String)) :
    List (String × Cell × List (String × Cell)) :=
  (cfg.rows.map (rowOps cfg dict)).flatten

-- ## Generic dict/object lemmas for the enricher

theorem objGet_dinsert {α : Type} (o : List (String × α)) (k' : String) (v : α)
    (k : String) :
    objGet (dinsert o k' v) k = if k' = k then some v else objGet o k := by
  induction o with
  | nil =>
    show objGet [(k', v)] k = _
    unfold objGet
    by_cases hk : k' = k
    · rw [if_pos hk, if_pos hk]
    · rw [if_neg hk, if_neg hk]
      rfl
  | cons p t ih =>
    unfold dinsert
    by_cases hp : p.1 = k'
    · rw [if_pos hp]
      show objGet ((k', v) :: t) k = _
      unfold objGet
      by_cases hk : k' = k
      · rw [if_pos hk, if_pos hk]
      · rw [if_neg hk, if_neg hk, if_neg (by rw [hp]; exact hk)]
    · rw [if_neg hp]
      show objGet (p :: dinsert t k' v) k = _
      unfold objGet
      by_cases hk2 : p.1 = k
      · rw [if_pos hk2, if_pos hk2, if_neg (fun hkk => hp (by rw [hk2, hkk]))]
      · rw [if_neg hk2, if_neg hk2, ih]

theorem mem_dinsert {α : Type} (o : List (String × α)) (k' : String) (v : α) :
    ∀ kv ∈ dinsert o k' v, kv.1 = k' ∨ kv ∈ o := by
  induction o with
  | nil =>
    intro kv hkv
    simp only [dinsert, List.mem_singleton] at hkv
    exact Or.inl (by rw [hkv])
  | cons p t ih =>
    intro kv hkv
    unfold dinsert at hkv
    by_cases hp : p.1 = k'
    · rw [if_pos hp] at hkv
      rcases List.mem_cons.mp hkv with h | h
      · exact Or.inl (by rw [h])
      · exact Or.inr (List.mem_cons_of_mem p h)
    · rw [if_neg hp] at hkv
      rcases List.mem_cons.mp hkv with h | h
      · exact Or.inr (by rw [h]; exact List.mem_cons_self p t)
      · rcases ih kv h with h2 | h2
        · exact Or.inl h2
        · exact Or.inr (List.mem_cons_of_mem p h2)

theorem dinsert_keys_nodup {α : Type} (o : List (String × α)) (k' : String) (v : α)
    (h : (o.map Prod.fst).Nodup) : ((dinsert o k' v).map Prod.fst).Nodup := by
  induction o with
  | nil => simp [dinsert]
  | cons p t ih =>
    unfold dinsert
    by_cases hp : p.1 = k'
    · rw [if_pos hp]
      simp only [List.map_cons, List.nodup_cons] at h ⊢
      refine ⟨fun hk => h.1 ?_, h.2⟩
      rw [hp]
      exact hk
    · rw [if_neg hp]
      simp only [List.map_cons, List.nodup_cons] at h ⊢
      refine ⟨fun hk => ?_, ih h.2⟩
      rcases List.mem_map.mp hk with ⟨kv, hkv, hkk⟩
      rcases mem_dinsert t k' v kv hkv with h2 | h2
      · exact hp (by rw [← hkk, h2])
      · exact h.1 (by rw [← hkk]; exact List.mem_map_of_mem Prod.fst h2)

theorem dget_storeUpdate (st : List (String × List (String × JVal)))
    (q : String) (f : List (String × JVal) → List (String × JVal)) (p : String) :
    dget (storeUpdate st q f) p
      = if q = p then (dget st p).map f else dget st p := by
  induction st with
  | nil =>
    show dget [] p = _
    by_cases hq : q = p
    · rw [if_pos hq]; rfl
    · rw [if_neg hq]
  | cons e t ih =>
    show dget ((if e.1 = q then (e.1, f e.2) else e) :: storeUpdate t q f) p = _
    by_cases he : e.1 = q
    · rw [if_pos he]
      by_cases hp : e.1 = p
      · have hqp : q = p := by rw [← he, hp]
        rw [if_pos hqp]
        show (if e.1 = p then some (f e.2) else dget (storeUpdate t q f) p) = _
        rw [if_pos hp]
        show _ = (dget (e :: t) p).map f
        unfold dget
        rw [if_pos hp]
        rfl
      · show (if e.1 = p then some (f e.2) else dget (storeUpdate t q f) p) = _
        rw [if_neg hp, ih]
        have hqp : ¬(q = p) := fun hq => hp (by rw [he, hq])
        rw [if_neg hqp, if_neg hqp]
        show _ = dget (e :: t) p
        unfold dget
        rw [if_neg hp]
        cases t <;> rfl
    · rw [if_neg he]
      show (if e.1 = p then some e.2 else dget (storeUpdate t q f) p) = _
      by_cases hp : e.1 = p
      · rw [if_pos hp]
        have hqp : ¬(q = p) := fun hq => he (by rw [hp, hq])
        rw [if_neg hqp]
        unfold dget
        rw [if_pos hp]
      · rw [if_neg hp, ih]
        by_cases hqp : q = p
        · rw [if_pos hqp, if_pos hqp]
          congr 1
          unfold dget
          rw [if_neg hp]
          cases t <;> rfl
        · rw [if_neg hqp, if_neg hqp]
          show _ = dget (e :: t) p
          unfold dget
          rw [if_neg hp]
          cases t <;> rfl

/-- A merge as a flat sequence of dict writes. -/
def applyWrites (a : List (String × JVal)) (W : List (String × JVal)) :
    List (String × JVal) :=
  W.foldl (fun o kv => dinsert o kv.1 kv.2) a

/-- The writes performed by one merge: `respondent_id` (raw), then the
metadata columns (coerced), in dict order. -/
def writesOf (ridCell : Cell) (metadata : List (String × Cell)) :
    List (String × JVal) :=
  ("respondent_id", cellRaw ridCell)
    :: metadata.map (fun kv => (kv.1, coerceCell kv.2))

theorem mergeInto_eq_applyWrites (a : List (String × JVal)) (ridCell : Cell)
    (metadata : List (String × Cell)) :
    mergeInto a ridCell metadata = applyWrites a (writesOf ridCell metadata) := by
  unfold mergeInto applyWrites writesOf
  rw [List.foldl_cons, List.foldl_map]

/-- The cumulative effect of an operation sequence on the artifact at
path `p`. -/
def entryApply (p : String) (a : List (String × JVal))
    (ops : List (String × Cell × List (String × Cell))) : List (String × JVal) :=
  ops.foldl (fun a op => if op.1 = p then mergeInto a op.2.1 op.2.2 else a) a

theorem dget_foldl_applyOp (ops : List (String × Cell × List (String × Cell))) :
    ∀ (st : List (String × List (String × JVal))) (p : String),
    dget (ops.foldl applyOp st) p = (dget st p).map (fun a => entryApply p a ops) := by
  induction ops with
  | nil =>
    intro st p
    cases h : dget st p with
    | none => simp [List.foldl_nil, h]
    | some a => simp [List.foldl_nil, h, entryApply]
  | cons op t ih =>
    intro st p
    rw [List.foldl_cons, ih]
    show (dget (storeUpdate st op.1 _) p).map _ = _
    rw [dget_storeUpdate]
    by_cases hq : op.1 = p
    · rw [if_pos hq]
      cases h : dget st p with
      | none => simp
      | some a =>
        simp only [Option.map_some']
        congr 1
        show entryApply p (mergeInto a op.2.1 op.2.2) t = entryApply p a (op :: t)
        unfold entryApply
        rw [List.foldl_cons, if_pos hq]
    · rw [if_neg hq]
      cases h : dget st p with
      | none => simp
      | some a =>
        simp only [Option.map_some']
        congr 1
        show entryApply p a t = entryApply p a (op :: t)
        unfold entryApply
        rw [List.foldl_cons, if_neg hq]

/-- The last value written to key `k` by a write sequence, if any. -/
def lastVal (W : List (String × JVal)) (k : String) : Option JVal :=
  (W.reverse.find? (fun kv => kv.1 == k)).map Prod.snd

/-- `some`-biased choice. -/
def withDefault (o d : Option JVal) : Option JVal :=
  match o with
  | some v => some v
  | none => d

theorem lastVal_cons (w : String × JVal) (W : List (String × JVal)) (k : String) :
    lastVal (w :: W) k
      = withDefault (lastVal W k) (if w.1 = k then some w.2 else none) := by
  unfold lastVal
  rw [List.reverse_cons, List.find?_append]
  cases hf : W.reverse.find? (fun kv => kv.1 == k) with
  | some kv => simp [withDefault, Option.or, hf]
  | none =>
    rw [Option.none_or]
    by_cases hw : w.1 = k
    · have hb : (w.1 == k) = true := by simp [hw]
      simp [List.find?, hb, withDefault, hw]
    · have hb : (w.1 == k) = false := by simp [hw]
      simp [List.find?, hb, withDefault, hw]

theorem objGet_applyWrites (W : List (String × JVal)) :
    ∀ (a : List (String × JVal)) (k : String),
    objGet (applyWrites a W) k = withDefault (lastVal W k) (objGet a k) := by
  induction W with
  | nil =>
    intro a k
    simp [applyWrites, lastVal, withDefault]
  | cons w t ih =>
    intro a k
    show objGet (applyWrites (dinsert a w.1 w.2) t) k = _
    rw [ih, lastVal_cons, objGet_dinsert]
    cases hl : lastVal t k with
    | some v => simp [withDefault]
    | none =>
      simp only [withDefault]
      by_cases hw : w.1 = k
      · rw [if_pos hw, if_pos hw]
      · rw [if_neg hw, if_neg hw]

/-- The writes that the operation sequence sends to path `p`. -/
def writesFor (p : String) (ops : List (String × Cell × List (String × Cell))) :
    List (String × JVal) :=
  (ops.filterMap (fun op =>
    if op.1 = p then some (writesOf op.2.1 op.2.2) else none)).flatten

theorem applyWrites_append (a : List (String × JVal)) (x y : List (String × JVal)) :
    applyWrites a (x ++ y) = applyWrites (applyWrites a x) y := by
  unfold applyWrites
  rw [List.foldl_append]

theorem entryApply_eq_applyWrites (ops : List (String × Cell × List (String × Cell))) :
    ∀ (p : String) (a : List (String × JVal)),
    entryApply p a ops = applyWrites a (writesFor p ops) := by
  induction ops with
  | nil => intro p a; rfl
  | cons op t ih =>
    intro p a
    show entryApply p a (op :: t) = _
    unfold entryApply writesFor
    rw [List.foldl_cons, List.filterMap_cons]
    by_cases hq : op.1 = p
    · rw [if_pos hq, if_pos hq]
      rw [List.flatten_cons]
      rw [applyWrites_append]
      rw [← mergeInto_eq_applyWrites]
      exact ih p (mergeInto a op.2.1 op.2.2)
    · rw [if_neg hq, if_neg hq]
      exact ih p a

theorem objGet_entryApply_twice (ops : List (String × Cell × List (String × Cell)))
    (p : String) (a : List (String × JVal)) (k : String) :
    objGet (entryApply p (entryApply p a ops) ops) k
      = objGet (entryApply p a ops) k := by
  rw [entryApply_eq_applyWrites, entryApply_eq_applyWrites,
    objGet_applyWrites, objGet_applyWrites]
  cases hl : lastVal (writesFor p ops) k with
  | some v => simp [withDefault]
  | none => simp [withDefault]

theorem objGet_applyWrites_preserve (W : List (String × JVal)) (k : String)
    (h : ∀ w ∈ W, ¬(w.1 = k)) (a : List (String × JVal)) :
    objGet (applyWrites a W) k = objGet a k := by
  rw [objGet_applyWrites]
  have hl : lastVal W k = none := by
    unfold lastVal
    rw [List.find?_eq_none.mpr]
    · rfl
    · intro kv hkv
      simp only [beq_iff_eq]
      exact h kv (List.mem_reverse.mp hkv)
  rw [hl]
  rfl

theorem mem_writesFor (p : String) (ops : List (String × Cell × List (String × Cell)))
    (w : String × JVal) (hw : w ∈ writesFor p ops) :
    ∃ op ∈ ops, w ∈ writesOf op.2.1 op.2.2 := by
  unfold writesFor at hw
  rw [List.mem_flatten] at hw
  obtain ⟨inner, hin, hwin⟩ := hw
  rw [List.mem_filterMap] at hin
  obtain ⟨op, hop, hres⟩ := hin
  by_cases hq : op.1 = p
  · rw [if_pos hq] at hres
    cases hres
    exact ⟨op, hop, hwin⟩
  · rw [if_neg hq] at hres
    cases hres

theorem foldl_skip_filterMap {α β γ : Type} (h : α → Option β) (g : γ → β → γ) :
    ∀ (l : List α) (a0 : γ),
    l.foldl (fun a x => match h x with | some y => g a y | none => a) a0
      = (l.filterMap h).foldl g a0 := by
  intro l
  induction l with
  | nil => intro a0; rfl
  | cons x t ih =>
    intro a0
    rw [List.foldl_cons, List.filterMap_cons]
    cases hx : h x with
    | some y => exact ih (g a0 y)
    | none => exact ih a0

theorem foldl_applySlot (dict : List (String × String))
    (row : List (String × Cell)) (ridCell : Cell) (md : List (String × Cell)) :
    ∀ (l : List String) (st : List (String × List (String × JVal))),
    l.foldl (applySlot dict row ridCell md) st
      = (l.filterMap (slotAction dict row ridCell md)).foldl applyOp st := by
  intro l
  induction l with
  | nil => intro st; rfl
  | cons fcol t ih =>
    intro st
    rw [List.foldl_cons, List.filterMap_cons]
    cases hs : slotAction dict row ridCell md fcol with
    | some op =>
      have hstep : applySlot dict row ridCell md st fcol = applyOp st op := by
        unfold applySlot
        rw [hs]
      rw [hstep]
      exact ih (applyOp st op)
    | none =>
      have hstep : applySlot dict row ridCell md st fcol = st := by
        unfold applySlot
        rw [hs]
      rw [hstep]
      exact ih st

theorem applyRow_eq_foldl_rowOps (cfg : EnrichConfig) (dict : List (String × String))
    (st : List (String × List (String × JVal))) (row : List (String × Cell)) :
    applyRow cfg dict st row = (rowOps cfg dict row).foldl applyOp st := by
  unfold applyRow rowOps
  cases hr : ridOf row with
  | none => rfl
  | some ridCell => exact foldl_applySlot dict row ridCell _ _ st

/-- The enrichment run is the sequential application of its flat
operation list. -/
theorem enrich_eq_foldl_allOps (cfg : EnrichConfig)
    (store : List (String × List (String × JVal))) :
    enrich_json_files cfg store
      = (allOps cfg (buildJsonDict store).1).foldl applyOp store := by
  unfold enrich_json_files allOps
  rw [List.foldl_flatten, List.foldl_map]
  have hfun : applyRow cfg (buildJsonDict store).1
      = (fun st row => (rowOps cfg (buildJsonDict store).1 row).foldl applyOp st) := by
    funext st row
    exact applyRow_eq_foldl_rowOps cfg (buildJsonDict store).1 st row
  rw [hfun]

theorem foldl_applyOp_map (ops : List (String × Cell × List (String × Cell))) :
    ∀ (store : List (String × List (String × JVal))),
    ops.foldl applyOp store
      = store.map (fun e => (e.1, entryApply e.1 e.2 ops)) := by
  induction ops with
  | nil =>
    intro store
    show store = store.map (fun e => (e.1, entryApply e.1 e.2 []))
    have : (fun (e : String × List (String × JVal)) => (e.1, entryApply e.1 e.2 []))
        = fun e => e := by
      funext e
      rfl
    rw [this]
    simp
  | cons op t ih =>
    intro store
    rw [List.foldl_cons, ih]
    show (storeUpdate store op.1 _).map _ = _
    unfold storeUpdate
    rw [List.map_map]
    apply List.map_congr_left
    intro e _
    show (fun e => (e.1, entryApply e.1 e.2 t))
        (if e.1 = op.1 then (e.1, mergeInto e.2 op.2.1 op.2.2) else e)
      = (e.1, entryApply e.1 e.2 (op :: t))
    by_cases he : e.1 = op.1
    · rw [if_pos he]
      show (e.1, entryApply e.1 (mergeInto e.2 op.2.1 op.2.2) t) = _
      have : entryApply e.1 e.2 (op :: t)
          = entryApply e.1 (mergeInto e.2 op.2.1 op.2.2) t := by
        unfold entryApply
        rw [List.foldl_cons, if_pos (by rw [he])]
      rw [this]
    · rw [if_neg he]
      show (e.1, entryApply e.1 e.2 t) = _
      have : entryApply e.1 e.2 (op :: t) = entryApply e.1 e.2 t := by
        unfold entryApply
        rw [List.foldl_cons, if_neg (fun hx => he (by rw [hx]))]
      rw [this]

theorem jsonDictStep_congr (de : List (String × String) × List String)
    (p : String) (a a' : List (String × JVal))
    (h : objGet a' "filename" = objGet a "filename") :
    jsonDictStep de (p, a') = jsonDictStep de (p, a) := by
  unfold jsonDictStep
  simp only
  rw [h]

theorem buildJsonDict_map_congr
    (F : String → List (String × JVal) → List (String × JVal))
    (hF : ∀ p a, objGet (F p a) "filename" = objGet a "filename")
    (store : List (String × List (String × JVal))) :
    ∀ de, (store.map (fun e => (e.1, F e.1 e.2))).foldl jsonDictStep de
      = store.foldl jsonDictStep de := by
  induction store with
  | nil => intro de; rfl
  | cons e t ih =>
    intro de
    rw [List.map_cons, List.foldl_cons, List.foldl_cons]
    rw [jsonDictStep_congr de e.1 e.2 (F e.1 e.2) (hF e.1 e.2)]
    have : jsonDictStep de (e.1, e.2) = jsonDictStep de e := by
      cases e
      rfl
    rw [this, ih]

theorem buildMetadata_keys (columns selected : List String)
    (row : List (String × Cell)) :
    ∀ kv ∈ buildMetadata columns selected row, kv.1 ∈ selected := by
  unfold buildMetadata
  have haux : ∀ (sel : List String) (acc : List (String × Cell)),
      (∀ kv ∈ acc, kv.1 ∈ selected) → (∀ c ∈ sel, c ∈ selected) →
      ∀ kv ∈ sel.foldl (fun m col =>
        if columns.contains col then
          match objGet row col with
          | some c => if cellNotna c && !(cellIsEmptyStr c) then dinsert m col c else m
          | none => m
        else m) acc, kv.1 ∈ selected := by
    intro sel
    induction sel with
    | nil => intro acc hacc _ kv hkv; exact hacc kv hkv
    | cons col t ih =>
      intro acc hacc hsel kv hkv
      rw [List.foldl_cons] at hkv
      refine ih _ ?_ (fun c hc => hsel c (List.mem_cons_of_mem col hc)) kv hkv
      intro kv2 hkv2
      by_cases hcol : columns.contains col = true
      · rw [if_pos hcol] at hkv2
        cases hg : objGet row col with
        | some c =>
          rw [hg] at hkv2
          replace hkv2 : kv2 ∈ (if (cellNotna c && !(cellIsEmptyStr c)) = true
              then dinsert acc col c else acc) := hkv2
          by_cases hc : (cellNotna c && !(cellIsEmptyStr c)) = true
          · rw [if_pos hc] at hkv2
            rcases mem_dinsert acc col c kv2 hkv2 with h | h
            · rw [h]; exact hsel col (List.mem_cons_self _ _)
            · exact hacc kv2 h
          · rw [if_neg hc] at hkv2
            exact hacc kv2 hkv2
        | none =>
          rw [hg] at hkv2
          exact hacc kv2 hkv2
      · rw [if_neg hcol] at hkv2
        exact hacc kv2 hkv2
  exact haux selected [] (by simp) (fun c hc => hc)

theorem slotAction_shape (dict : List (String × String)) (row : List (String × Cell))
    (ridCell : Cell) (md : List (String × Cell)) (fcol : String)
    (op : String × Cell × List (String × Cell))
    (h : slotAction dict row ridCell md fcol = some op) :
    op.2.1 = ridCell ∧ op.2.2 = md := by
  unfold slotAction at h
  cases hg : objGet row fcol with
  | some c =>
    rw [hg] at h
    replace h : (if (cellNotna c && !(cellIsEmptyStr c)) = true then
        match dget dict (normalize_filename (pyStrCell c)) with
        | some path => some (path, ridCell, md)
        | none => none
      else none) = some op := h
    by_cases hc : (cellNotna c && !(cellIsEmptyStr c)) = true
    · rw [if_pos hc] at h
      cases hd : dget dict (normalize_filename (pyStrCell c)) with
      | some path =>
        rw [hd] at h
        cases h
        exact ⟨rfl, rfl⟩
      | none => rw [hd] at h; cases h
    · rw [if_neg hc] at h; cases h
  | none => rw [hg] at h; cases h

theorem allOps_metadata (cfg : EnrichConfig) (dict : List (String × String))
    (op : String × Cell × List (String × Cell)) (hop : op ∈ allOps cfg dict) :
    ∃ row ∈ cfg.rows, op.2.2 = buildMetadata cfg.columns cfg.selectedCols row := by
  unfold allOps at hop
  rw [List.mem_flatten] at hop
  obtain ⟨inner, hin, hopin⟩ := hop
  rw [List.mem_map] at hin
  obtain ⟨row, hrow, hinner⟩ := hin
  refine ⟨row, hrow, ?_⟩
  rw [← hinner] at hopin
  unfold rowOps at hopin
  cases hr : ridOf row with
  | none => rw [hr] at hopin; simp at hopin
  | some ridCell =>
    rw [hr] at hopin
    rw [List.mem_filterMap] at hopin
    obtain ⟨fcol, _, hsa⟩ := hopin
    exact (slotAction_shape dict row ridCell _ fcol op hsa).2

theorem writesFor_no_filename (cfg : EnrichConfig) (dict : List (String × String))
    (hsel : "filename" ∉ cfg.selectedCols) (p : String) :
    ∀ w ∈ writesFor p (allOps cfg dict), ¬(w.1 = "filename") := by
  intro w hw
  obtain ⟨op, hop, hwop⟩ := mem_writesFor p (allOps cfg dict) w hw
  unfold writesOf at hwop
  rcases List.mem_cons.mp hwop with h | h
  · rw [h]
    intro hx
    have hne : ("respondent_id" : String) ≠ "filename" := by decide
    exact hne hx
  · rw [List.mem_map] at h
    obtain ⟨kv, hkv, hkw⟩ := h
    obtain ⟨row, _, hmd⟩ := allOps_metadata cfg dict op hop
    rw [hmd] at hkv
    have := buildMetadata_keys cfg.columns cfg.selectedCols row kv hkv
    intro hccc
    rw [← hkw] at hccc
    simp only at hccc
    rw [hccc] at this
    exact hsel this

theorem entryApply_preserves_filename (cfg : EnrichConfig)
    (dict : List (String × String)) (hsel : "filename" ∉ cfg.selectedCols)
    (p : String) (a : List (String × JVal)) :
    objGet (entryApply p a (allOps cfg dict)) "filename" = objGet a "filename" := by
  rw [entryApply_eq_applyWrites]
  exact objGet_applyWrites_preserve _ _ (writesFor_no_filename cfg dict hsel p) a

theorem applyWrites_keys_nodup (W : List (String × JVal)) :
    ∀ a : List (String × JVal), ((a.map Prod.fst).Nodup) →
    (((applyWrites a W).map Prod.fst).Nodup) := by
  induction W with
  | nil => intro a h; exact h
  | cons w t ih =>
    intro a h
    show (((applyWrites (dinsert a w.1 w.2) t).map Prod.fst).Nodup)
    exact ih _ (dinsert_keys_nodup a w.1 w.2 h)

theorem map_fst_entryApply (ops : List (String × Cell × List (String × Cell)))
    (st : List (String × List (String × JVal))) :
    ((st.map (fun e => (e.1, entryApply e.1 e.2 ops))).map Prod.fst)
      = st.map Prod.fst := by
  rw [List.map_map]
  exact List.map_congr_left (fun e _ => rfl)

/-- C7 (amended): the enrichment merge is idempotent provided no
merged metadata column is named `filename` (equivalently, `filename`
is not in the selected allow-list — every interactive selection
satisfies this, since columns starting with `file` are excluded from
the prompt; a preconfigured allow-list containing `filename` can
rewrite the artifact's `filename` field, change second-run matching,
and break idempotence — see the counterexample).  Under that proviso a
second run leaves every artifact's content equal key-by-key
(order-insensitively) to its content after the first run, keeps the
path list unchanged, and merged keys are overwritten, never appended
or duplicated (duplicate-free keys stay duplicate-free). -/
theorem enrich_idempotent_no_filename_col (cfg : EnrichConfig)
    (store : List (String × List (String × JVal)))
    (hsel : "filename" ∉ cfg.selectedCols) :
    ((enrich_json_files cfg (enrich_json_files cfg store)).map Prod.fst
      = (enrich_json_files cfg store).map Prod.fst) ∧
    (∀ p k : String,
      (dget (enrich_json_files cfg (enrich_json_files cfg store)) p).bind
          (fun a => objGet a k)
        = (dget (enrich_json_files cfg store) p).bind (fun a => objGet a k)) ∧
    ((∀ e ∈ store, ((e.2).map Prod.fst).Nodup) →
      ∀ e ∈ enrich_json_files cfg store, ((e.2).map Prod.fst).Nodup) := by
  have hdict : buildJsonDict (enrich_json_files cfg store) = buildJsonDict store := by
    rw [enrich_eq_foldl_allOps, foldl_applyOp_map]
    exact buildJsonDict_map_congr
      (fun p a => entryApply p a (allOps cfg (buildJsonDict store).1))
      (entryApply_preserves_filename cfg (buildJsonDict store).1 hsel)
      store ([], [])
  have hs2 : enrich_json_files cfg (enrich_json_files cfg store)
      = (allOps cfg (buildJsonDict store).1).foldl applyOp
          (enrich_json_files cfg store) := by
    rw [enrich_eq_foldl_allOps cfg (enrich_json_files cfg store), hdict]
  refine ⟨?_, ?_, ?_⟩
  · rw [hs2, foldl_applyOp_map]
    exact map_fst_entryApply _ _
  · intro p k
    rw [hs2, dget_foldl_applyOp]
    rw [enrich_eq_foldl_allOps cfg store, dget_foldl_applyOp]
    cases h : dget store p with
    | none => rfl
    | some a =>
      simp only [Option.map_some', Option.some_bind]
      exact objGet_entryApply_twice _ p a k
  · intro hnod e he
    rw [enrich_eq_foldl_allOps, foldl_applyOp_map] at he
    rcases List.mem_map.mp he with ⟨e0, he0, heq⟩
    rw [← heq]
    show ((entryApply e0.1 e0.2 _).map Prod.fst).Nodup
    rw [entryApply_eq_applyWrites]
    exact applyWrites_keys_nodup _ _ (hnod e0 he0)

/-- A mapping table whose preconfigured allow-list contains the column
`filename`: row 1 maps `x.pdf` and rewrites the artifact's `filename`
field to `y`; row 2 declares `y` in `File#1`. -/
def cfgC7 : EnrichConfig :=
  { columns := ["Respondent ID", "File#1", "filename"],
    rows := [
      [("Respondent ID", Cell.num 1), ("File#1", Cell.str "x.pdf"),
        ("filename", Cell.str "y")],
      [("Respondent ID", Cell.num 2), ("File#1", Cell.str "y"),
        ("filename", Cell.na)]],
    selectedCols := ["respondent_id", "Respondent ID", "filename"] }

/-- One artifact whose embedded original filename is `x.pdf`. -/
def storeC7 : List (String × List (String × JVal)) :=
  [("p1", [("filename", JVal.s "x.pdf"), ("text", JVal.s "hello")])]

set_option maxRecDepth 10000 in
/-- C7 is false as stated: with the (preconfigured) allow-list
containing the `filename` column, the first merge rewrites the
artifact's `filename` field from `x.pdf` to `y`; on the second run the
artifact is re-indexed under `y`, row 2's declared file `y` now
matches it, and `respondent_id` changes from 1 to 2 — the second run
does not leave the artifact's content equal to its content after the
first run. -/
theorem enrich_second_run_differs_cex :
    (dget (enrich_json_files cfgC7 storeC7) "p1").bind
        (fun a => objGet a "respondent_id") = some (JVal.i 1) ∧
    (dget (enrich_json_files cfgC7 (enrich_json_files cfgC7 storeC7)) "p1").bind
        (fun a => objGet a "respondent_id") = some (JVal.i 2) := by
  constructor
  · decide
  · decide

/-- A collision-free enrichment setup without `filename` among the
selected columns. -/
def cfgC7w : EnrichConfig :=
  { columns := ["Respondent ID", "File#1"],
    rows := [[("Respondent ID", Cell.num 5), ("File#1", Cell.str "x.pdf")]],
    selectedCols := ["respondent_id", "Respondent ID"] }

/-- Witness for the amended C7 at a concrete table and store. -/
theorem enrich_idempotent_witness :
    ((enrich_json_files cfgC7w (enrich_json_files cfgC7w storeC7)).map Prod.fst
      = (enrich_json_files cfgC7w storeC7).map Prod.fst) ∧
    (∀ p k : String,
      (dget (enrich_json_files cfgC7w (enrich_json_files cfgC7w storeC7)) p).bind
          (fun a => objGet a k)
        = (dget (enrich_json_files cfgC7w storeC7) p).bind (fun a => objGet a k)) ∧
    ((∀ e ∈ storeC7, ((e.2).map Prod.fst).Nodup) →
      ∀ e ∈ enrich_json_files cfgC7w storeC7, ((e.2).map Prod.fst).Nodup) :=
  enrich_idempotent_no_filename_col cfgC7w storeC7 (by decide)

-- ## Claim C8

/-- Does this artifact contribute the dict key `n`? (its embedded
filename is a non-empty string normalizing to `n`). -/
def artifactKeyMatches (e : String × List (String × JVal)) (n : String) : Bool :=
  match objGet e.2 "filename" with
  | some (JVal.s fn) => fn != "" && normalize_filename fn == n
  | _ => false

/-- A truthy non-string `filename` field (raises `TypeError` inside
the `try`, logged as `json_read_error`). -/
def isMalformedFilename (e : String × List (String × JVal)) : Bool :=
  match objGet e.2 "filename" with
  | some (JVal.s _) => false
  | some v => jvalTruthy v
  | none => false

/-- The dict entry contributed by one artifact, if any. -/
def matchEntry (e : String × List (String × JVal)) : Option (String × String) :=
  match objGet e.2 "filename" with
  | some (JVal.s fn) => if fn ≠ "" then some (normalize_filename fn, e.1) else none
  | _ => none

theorem jsonDict_fst_eq (store : List (String × List (String × JVal))) :
    ∀ de, (store.foldl jsonDictStep de).1 = (store.filterMap matchEntry).reverse ++ de.1 := by
  induction store with
  | nil => intro de; simp
  | cons e t ih =>
    intro de
    rw [List.foldl_cons, List.filterMap_cons]
    have hstep : ∀ de', jsonDictStep de' e
        = match objGet e.2 "filename" with
          | some (JVal.s fn) =>
            if fn ≠ "" then ((normalize_filename fn, e.1) :: de'.1, de'.2) else de'
          | some v => if jvalTruthy v then (de'.1, de'.2 ++ ["json_read_error"]) else de'
          | none => de' := fun _ => rfl
    cases hg : objGet e.2 "filename" with
    | some v =>
      cases v with
      | s fn =>
        by_cases hf : fn ≠ ""
        · have h1 : jsonDictStep de e = ((normalize_filename fn, e.1) :: de.1, de.2) := by
            rw [hstep, hg]
            simp [hf]
          have h2 : matchEntry e = some (normalize_filename fn, e.1) := by
            unfold matchEntry
            rw [hg]
            simp [hf]
          rw [h1, h2, ih]
          simp
        · have h1 : jsonDictStep de e = de := by
            rw [hstep, hg]
            simp at hf
            simp [hf]
          have h2 : matchEntry e = none := by
            unfold matchEntry
            rw [hg]
            simp at hf
            simp [hf]
          rw [h1, h2, ih]
      | i n =>
        have h1 : jsonDictStep de e
            = if jvalTruthy (JVal.i n) then (de.1, de.2 ++ ["json_read_error"]) else de := by
          rw [hstep, hg]
        have h2 : matchEntry e = none := by
          unfold matchEntry; rw [hg]
        rw [h1, h2, ih]
        by_cases ht : jvalTruthy (JVal.i n) = true
        · rw [if_pos ht]
        · rw [if_neg ht]
      | b bb =>
        have h1 : jsonDictStep de e
            = if jvalTruthy (JVal.b bb) then (de.1, de.2 ++ ["json_read_error"]) else de := by
          rw [hstep, hg]
        have h2 : matchEntry e = none := by
          unfold matchEntry; rw [hg]
        rw [h1, h2, ih]
        by_cases ht : jvalTruthy (JVal.b bb) = true
        · rw [if_pos ht]
        · rw [if_neg ht]
      | nanV =>
        have h1 : jsonDictStep de e = (de.1, de.2 ++ ["json_read_error"]) := by
          rw [hstep, hg]; rfl
        have h2 : matchEntry e = none := by
          unfold matchEntry; rw [hg]
        rw [h1, h2, ih]
      | ts sh =>
        have h1 : jsonDictStep de e = (de.1, de.2 ++ ["json_read_error"]) := by
          rw [hstep, hg]; rfl
        have h2 : matchEntry e = none := by
          unfold matchEntry; rw [hg]
        rw [h1, h2, ih]
      | blob sh =>
        have h1 : jsonDictStep de e = (de.1, de.2 ++ ["json_read_error"]) := by
          rw [hstep, hg]; rfl
        have h2 : matchEntry e = none := by
          unfold matchEntry; rw [hg]
        rw [h1, h2, ih]
    | none =>
      have h1 : jsonDictStep de e = de := by rw [hstep, hg]
      have h2 : matchEntry e = none := by unfold matchEntry; rw [hg]
      rw [h1, h2, ih]

theorem jsonDict_snd_eq (store : List (String × List (String × JVal))) :
    ∀ de, (store.foldl jsonDictStep de).2
      = de.2 ++ (store.filter isMalformedFilename).map (fun _ => "json_read_error") := by
  induction store with
  | nil => intro de; simp
  | cons e t ih =>
    intro de
    rw [List.foldl_cons, List.filter_cons]
    have hstep : ∀ de', jsonDictStep de' e
        = match objGet e.2 "filename" with
          | some (JVal.s fn) =>
            if fn ≠ "" then ((normalize_filename fn, e.1) :: de'.1, de'.2) else de'
          | some v => if jvalTruthy v then (de'.1, de'.2 ++ ["json_read_error"]) else de'
          | none => de' := fun _ => rfl
    have hmal : isMalformedFilename e
        = match objGet e.2 "filename" with
          | some (JVal.s _) => false
          | some v => jvalTruthy v
          | none => false := rfl
    cases hg : objGet e.2 "filename" with
    | some v =>
      cases v with
      | s fn =>
        have hm : isMalformedFilename e = false := by rw [hmal, hg]
        rw [hm]
        simp only [Bool.false_eq_true, if_neg, ite_false]
        by_cases hf : fn ≠ ""
        · have h1 : jsonDictStep de e = ((normalize_filename fn, e.1) :: de.1, de.2) := by
            rw [hstep, hg]; simp [hf]
          rw [h1, ih]
        · have h1 : jsonDictStep de e = de := by
            rw [hstep, hg]
            simp at hf
            simp [hf]
          rw [h1, ih]
      | i n =>
        have hm : isMalformedFilename e = jvalTruthy (JVal.i n) := by rw [hmal, hg]
        have h1 : jsonDictStep de e
            = if jvalTruthy (JVal.i n) then (de.1, de.2 ++ ["json_read_error"]) else de := by
          rw [hstep, hg]
        rw [hm, h1]
        by_cases ht : jvalTruthy (JVal.i n) = true
        · rw [if_pos ht, if_pos ht, ih]
          simp
        · rw [if_neg ht, if_neg ht, ih]
      | b bb =>
        have hm : isMalformedFilename e = jvalTruthy (JVal.b bb) := by rw [hmal, hg]
        have h1 : jsonDictStep de e
            = if jvalTruthy (JVal.b bb) then (de.1, de.2 ++ ["json_read_error"]) else de := by
          rw [hstep, hg]
        rw [hm, h1]
        by_cases ht : jvalTruthy (JVal.b bb) = true
        · rw [if_pos ht, if_pos ht, ih]
          simp
        · rw [if_neg ht, if_neg ht, ih]
      | nanV =>
        have hm : isMalformedFilename e = true := by rw [hmal, hg]; rfl
        have h1 : jsonDictStep de e = (de.1, de.2 ++ ["json_read_error"]) := by
          rw [hstep, hg]; rfl
        rw [hm, h1, if_pos rfl, ih]
        simp
      | ts sh =>
        have hm : isMalformedFilename e = true := by rw [hmal, hg]; rfl
        have h1 : jsonDictStep de e = (de.1, de.2 ++ ["json_read_error"]) := by
          rw [hstep, hg]; rfl
        rw [hm, h1, if_pos rfl, ih]
        simp
      | blob sh =>
        have hm : isMalformedFilename e = true := by rw [hmal, hg]; rfl
        have h1 : jsonDictStep de e = (de.1, de.2 ++ ["json_read_error"]) := by
          rw [hstep, hg]; rfl
        rw [hm, h1, if_pos rfl, ih]
        simp
    | none =>
      have hm : isMalformedFilename e = false := by rw [hmal, hg]
      have h1 : jsonDictStep de e = de := by rw [hstep, hg]
      rw [hm, h1]
      simp only [Bool.false_eq_true, if_neg, ite_false]
      rw [ih]

theorem dget_eq_find {α : Type} (l : List (String × α)) (n : String) :
    dget l n = (l.find? (fun kv => kv.1 == n)).map Prod.snd := by
  induction l with
  | nil => rfl
  | cons p t ih =>
    show (if p.1 = n then some p.2 else dget t n) = _
    by_cases hp : p.1 = n
    · have hb : (p.1 == n) = true := by simp [hp]
      rw [if_pos hp]
      simp [List.find?, hb]
    · have hb : (p.1 == n) = false := by simp [hp]
      rw [if_neg hp]
      simp [List.find?, hb, ih]

theorem matchEntry_some_key (e : String × List (String × JVal))
    (nn path : String) (h : matchEntry e = some (nn, path)) (n : String) :
    artifactKeyMatches e n = (nn == n) ∧ path = e.1 := by
  unfold matchEntry at h
  unfold artifactKeyMatches
  cases hg : objGet e.2 "filename" with
  | some v =>
    rw [hg] at h
    cases v with
    | s fn =>
      show (fn != "" && normalize_filename fn == n) = (nn == n) ∧ path = e.1
      replace h : (if fn ≠ "" then some (normalize_filename fn, e.1) else none)
          = some (nn, path) := h
      by_cases hf : fn ≠ ""
      · rw [if_pos hf] at h
        simp only [Option.some.injEq, Prod.mk.injEq] at h
        have hb : (fn != "") = true := by
          simp only [bne_iff_ne, ne_eq]
          exact hf
        constructor
        · rw [hb, Bool.true_and, h.1]
        · exact h.2.symm
      · rw [if_neg hf] at h
        cases h
    | i m => cases h
    | b bb => cases h
    | nanV => cases h
    | ts sh => cases h
    | blob sh => cases h
  | none => rw [hg] at h; cases h

theorem matchEntry_none_key (e : String × List (String × JVal))
    (h : matchEntry e = none) (n : String) : artifactKeyMatches e n = false := by
  unfold matchEntry at h
  unfold artifactKeyMatches
  cases hg : objGet e.2 "filename" with
  | some v =>
    rw [hg] at h
    cases v with
    | s fn =>
      show (fn != "" && normalize_filename fn == n) = false
      replace h : (if fn ≠ "" then some (normalize_filename fn, e.1) else none)
          = none := h
      by_cases hf : fn ≠ ""
      · rw [if_pos hf] at h; cases h
      · have hb : (fn != "") = false := by
          simp only [bne_eq_false_iff_eq]
          simpa using hf
        rw [hb, Bool.false_and]
    | i m => rfl
    | b bb => rfl
    | nanV => rfl
    | ts sh => rfl
    | blob sh => rfl
  | none => rfl

theorem find_filterMap_matchEntry (n : String) :
    ∀ l : List (String × List (String × JVal)),
    ((l.filterMap matchEntry).find? (fun kv => kv.1 == n)).map Prod.snd
      = (l.find? (fun e => artifactKeyMatches e n)).map Prod.fst := by
  intro l
  induction l with
  | nil => rfl
  | cons e t ih =>
    rw [List.filterMap_cons]
    cases hm : matchEntry e with
    | some kv =>
      obtain ⟨hkey, hpath⟩ := matchEntry_some_key e kv.1 kv.2 (by rw [hm]) n
      by_cases hn : (kv.1 == n) = true
      · simp [List.find?, hn, hkey, hpath]
      · have hn' : (kv.1 == n) = false := by
          cases hx : (kv.1 == n) with
          | true => exact absurd hx hn
          | false => rfl
        show (((kv :: t.filterMap matchEntry).find? (fun kv => kv.1 == n)).map Prod.snd)
            = (((e :: t).find? (fun e => artifactKeyMatches e n)).map Prod.fst)
        simp only [List.find?]
        rw [hkey, hn']
        exact ih
    | none =>
      show (((t.filterMap matchEntry).find? (fun kv => kv.1 == n)).map Prod.snd)
          = (((e :: t).find? (fun e => artifactKeyMatches e n)).map Prod.fst)
      simp only [List.find?]
      rw [matchEntry_none_key e hm n]
      exact ih

/-- C8 (amended): when files normalize to the same artifact key during
indexing, the key resolves to whichever artifact was found *last* in
the directory walk (each later assignment overwrites the earlier one),
no collision event is logged (the only events of the index build are
one `json_read_error` per artifact with a truthy non-string filename
field), and processing continues. -/
theorem normalized_collision_resolution (store : List (String × List (String × JVal)))
    (n : String) :
    dget (buildJsonDict store).1 n
      = (store.reverse.find? (fun e => artifactKeyMatches e n)).map Prod.fst ∧
    (buildJsonDict store).2
      = (store.filter isMalformedFilename).map (fun _ => "json_read_error") := by
  constructor
  · show dget (store.foldl jsonDictStep ([], [])).1 n = _
    rw [jsonDict_fst_eq store ([], [])]
    rw [List.append_nil, dget_eq_find]
    rw [← List.filterMap_reverse]
    exact find_filterMap_matchEntry n store.reverse
  · show (store.foldl jsonDictStep ([], [])).2 = _
    rw [jsonDict_snd_eq store ([], [])]
    rfl

/-- Two artifacts whose filenames `a b` and `a-b` both normalize to
`ab`. -/
def storeC8 : List (String × List (String × JVal)) :=
  [("p1", [("filename", JVal.s "a b")]), ("p2", [("filename", JVal.s "a-b")])]

/-- C8 is false as stated: on a normalized-name collision the index
resolves to the artifact found *last* in the walk (`p2`, not the first
match `p1`), and nothing is logged for the collision. -/
theorem normalized_collision_last_wins_cex :
    normalize_filename "a b" = "ab" ∧ normalize_filename "a-b" = "ab" ∧
    dget (buildJsonDict storeC8).1 "ab" = some "p2" ∧
    (buildJsonDict storeC8).2 = [] := by
  refine ⟨by decide, by decide, by decide, by decide⟩

-- ## ForensicAnalyzer (src/forensic_analysis.py)

/-- A parsed file event as read back by `ForensicAnalyzer.load_logs`.
`event_type = none` models a record without an `'event_type'` key,
`sha256 = none` one without a `'hashes'` key. -/
structure FEvent where
  event_type : Option String
  filepath : String
  sha256 : Option String
  file_size : Nat
  timestamp : String
deriving DecidableEq

/-- `hash_occurrences[h].append(p)` on a `defaultdict(list)`: first
use of a key appends the key at the end, later uses extend its path
list in place. -/
def addOcc (l : List (String × List String)) (h p : String) :
    List (String × List String) :=
  match l with
  | [] => [(h, [p])]
  | e :: t => if e.1 = h then (e.1, e.2 ++ [p]) :: t else e :: addOcc t h p

/-- One iteration of the event loop of `analyze_file_operations`
(lines 51-65), restricted to the hash-occurrence accumulator; the
operation-count and zero-byte-write accumulators are independent of it
and of claim C9. -/
def occStep (acc : List (String × List String)) (ev : FEvent) :
    List (String × List String) :=
  match ev.event_type with
  | some _ =>
    match ev.sha256 with
    | some h => addOcc acc h ev.filepath
    | none => acc
  | none => acc

/-- The hash-occurrence table over all loaded events. -/
def hash_occurrences (events : List FEvent) : List (String × List String) :=
  events.foldl occStep []

/-- `duplicate_files`: the groups whose path list has more than one
element (line 69). -/
def duplicate_files (events : List FEvent) : List (String × List String) :=
  (hash_occurrences events).filter (fun p => p.2.length > 1)

/-- Does the event enter the hash accumulator with hash `h`? -/
def countsForHash (ev : FEvent) (h : String) : Bool :=
  ev.event_type.isSome && ev.sha256 == some h

/-- Number of logged file events carrying hash `h` (with
multiplicity). -/
def countWithHash (events : List FEvent) (h : String) : Nat :=
  (events.filter (fun ev => countsForHash ev h)).length

/-- The file paths of the events carrying hash `h`, in log order. -/
def pathsWithHash (events : List FEvent) (h : String) : List String :=
  (events.filter (fun ev => countsForHash ev h)).map (fun ev => ev.filepath)

theorem objGet_addOcc (acc : List (String × List String)) (h' p h : String) :
    objGet (addOcc acc h' p) h
      = if h' = h then
          (match objGet acc h with
           | some ps => some (ps ++ [p])
           | none => some [p])
        else objGet acc h := by
  induction acc with
  | nil =>
    show objGet [(h', [p])] h = _
    by_cases hh : h' = h
    · rw [if_pos hh]
      show (if h' = h then some [p] else objGet [] h) = _
      rw [if_pos hh]
      rfl
    · rw [if_neg hh]
      show (if h' = h then some [p] else objGet [] h) = _
      rw [if_neg hh]
  | cons e t ih =>
    show objGet (if e.1 = h' then (e.1, e.2 ++ [p]) :: t else e :: addOcc t h' p) h = _
    by_cases he : e.1 = h'
    · rw [if_pos he]
      show (if e.1 = h then some (e.2 ++ [p]) else objGet t h) = _
      by_cases heh : e.1 = h
      · rw [if_pos heh]
        have hh : h' = h := by rw [← he, heh]
        rw [if_pos hh]
        have : objGet (e :: t) h = some e.2 := by
          show (if e.1 = h then some e.2 else objGet t h) = _
          rw [if_pos heh]
        rw [this]
      · rw [if_neg heh]
        have hh : ¬(h' = h) := fun hx => heh (by rw [he, hx])
        rw [if_neg hh]
        show _ = objGet (e :: t) h
        unfold objGet
        rw [if_neg heh]
        cases t <;> rfl
    · rw [if_neg he]
      show (if e.1 = h then some e.2 else objGet (addOcc t h' p) h) = _
      by_cases heh : e.1 = h
      · rw [if_pos heh]
        by_cases hh : h' = h
        · exact absurd (by rw [hh, ← heh]) he
        · rw [if_neg hh]
          show _ = objGet (e :: t) h
          unfold objGet
          rw [if_pos heh]
      · rw [if_neg heh, ih]
        have hget : objGet (e :: t) h = objGet t h := by
          unfold objGet
          rw [if_neg heh]
          cases t <;> rfl
        rw [hget]

theorem pathsWithHash_cons (ev : FEvent) (t : List FEvent) (h : String) :
    pathsWithHash (ev :: t) h
      = if countsForHash ev h = true then ev.filepath :: pathsWithHash t h
        else pathsWithHash t h := by
  unfold pathsWithHash
  rw [List.filter_cons]
  by_cases hc : countsForHash ev h = true
  · rw [if_pos hc, if_pos hc, List.map_cons]
  · rw [if_neg hc, if_neg hc]

theorem objGet_hashOcc (events : List FEvent) :
    ∀ (acc : List (String × List String)) (h : String),
    objGet (events.foldl occStep acc) h
      = match objGet acc h with
        | some ps => some (ps ++ pathsWithHash events h)
        | none =>
          if pathsWithHash events h = [] then none
          else some (pathsWithHash events h) := by
  induction events with
  | nil =>
    intro acc h
    have hp : pathsWithHash [] h = [] := rfl
    rw [List.foldl_nil, hp]
    cases hg : objGet acc h with
    | some ps => simp
    | none => simp
  | cons ev t ih =>
    intro acc h
    rw [List.foldl_cons, pathsWithHash_cons]
    cases het : ev.event_type with
    | none =>
      have hstep : occStep acc ev = acc := by unfold occStep; rw [het]
      have hc : countsForHash ev h = false := by
        unfold countsForHash
        rw [het]
        rfl
      rw [hstep, hc, if_neg (by simp), ih]
    | some ty =>
      cases hsh : ev.sha256 with
      | none =>
        have hstep : occStep acc ev = acc := by unfold occStep; rw [het, hsh]
        have hc : countsForHash ev h = false := by
          unfold countsForHash
          rw [het, hsh]
          rfl
        rw [hstep, hc, if_neg (by simp), ih]
      | some h' =>
        have hstep : occStep acc ev = addOcc acc h' ev.filepath := by
          unfold occStep; rw [het, hsh]
        rw [hstep, ih]
        by_cases hh : h' = h
        · have hc : countsForHash ev h = true := by
            unfold countsForHash
            rw [het, hsh, hh]
            simp
          rw [hc, if_pos rfl, objGet_addOcc, if_pos hh]
          cases hg : objGet acc h with
          | some ps => simp
          | none => simp
        · have hc : countsForHash ev h = false := by
            unfold countsForHash
            rw [het, hsh]
            simp [hh]
          rw [hc, objGet_addOcc, if_neg hh]
          cases objGet acc h <;> simp

theorem mem_addOcc_keys (acc : List (String × List String)) (h p : String) :
    ∀ e ∈ addOcc acc h p, e.1 = h ∨ e.1 ∈ acc.map Prod.fst := by
  induction acc with
  | nil =>
    intro e he
    simp only [addOcc, List.mem_singleton] at he
    exact Or.inl (by rw [he])
  | cons x t ih =>
    intro e he
    show e.1 = h ∨ e.1 ∈ (x :: t).map Prod.fst
    replace he : e ∈ (if x.1 = h then (x.1, x.2 ++ [p]) :: t else x :: addOcc t h p) := he
    by_cases hx : x.1 = h
    · rw [if_pos hx] at he
      rcases List.mem_cons.mp he with h1 | h1
      · exact Or.inl (by rw [h1, hx])
      · refine Or.inr ?_
        rw [List.map_cons]
        exact List.mem_cons_of_mem _ (List.mem_map_of_mem Prod.fst h1)
    · rw [if_neg hx] at he
      rcases List.mem_cons.mp he with h1 | h1
      · exact Or.inr (by rw [h1]; simp)
      · rcases ih e h1 with h2 | h2
        · exact Or.inl h2
        · refine Or.inr ?_
          rw [List.map_cons]
          exact List.mem_cons_of_mem _ h2

theorem addOcc_keys_nodup (acc : List (String × List String)) (h p : String)
    (hn : (acc.map Prod.fst).Nodup) : ((addOcc acc h p).map Prod.fst).Nodup := by
  induction acc with
  | nil => simp [addOcc]
  | cons x t ih =>
    show ((if x.1 = h then (x.1, x.2 ++ [p]) :: t else x :: addOcc t h p).map Prod.fst).Nodup
    simp only [List.map_cons, List.nodup_cons] at hn
    by_cases hx : x.1 = h
    · rw [if_pos hx]
      simp only [List.map_cons, List.nodup_cons]
      exact ⟨hn.1, hn.2⟩
    · rw [if_neg hx]
      simp only [List.map_cons, List.nodup_cons]
      refine ⟨fun hmem => ?_, ih hn.2⟩
      rcases List.mem_map.mp hmem with ⟨e, he, hek⟩
      rcases mem_addOcc_keys t h p e he with h1 | h1
      · exact hx (by rw [← hek, h1])
      · exact hn.1 (by rw [← hek]; exact h1)

theorem hashOcc_keys_nodup (events : List FEvent) :
    ∀ acc, ((acc.map Prod.fst).Nodup) →
    (((events.foldl occStep acc).map Prod.fst).Nodup) := by
  induction events with
  | nil => intro acc hn; exact hn
  | cons ev t ih =>
    intro acc hn
    rw [List.foldl_cons]
    apply ih
    unfold occStep
    cases het : ev.event_type with
    | none => exact hn
    | some ty =>
      cases hsh : ev.sha256 with
      | none => exact hn
      | some h' => exact addOcc_keys_nodup acc h' ev.filepath hn

theorem objGet_of_mem_nodup {α : Type} (l : List (String × α)) (k : String) (v : α)
    (hm : (k, v) ∈ l) (hn : (l.map Prod.fst).Nodup) : objGet l k = some v := by
  induction l with
  | nil => simp at hm
  | cons e t ih =>
    simp only [List.map_cons, List.nodup_cons] at hn
    show (if e.1 = k then some e.2 else objGet t k) = some v
    rcases List.mem_cons.mp hm with h1 | h1
    · rw [← h1]
      simp
    · by_cases hek : e.1 = k
      · exfalso
        apply hn.1
        rw [hek]
        exact List.mem_map_of_mem Prod.fst h1
      · rw [if_neg hek]
        exact ih h1 hn.2

theorem mem_of_objGet {α : Type} (l : List (String × α)) (k : String) (v : α)
    (h : objGet l k = some v) : (k, v) ∈ l := by
  induction l with
  | nil => cases h
  | cons e t ih =>
    replace h : (if e.1 = k then some e.2 else objGet t k) = some v := h
    by_cases hek : e.1 = k
    · rw [if_pos hek] at h
      simp only [Option.some.injEq] at h
      have he : (k, v) = e := Prod.ext hek.symm h.symm
      rw [he]
      exact List.mem_cons_self _ _
    · rw [if_neg hek] at h
      exact List.mem_cons_of_mem e (ih h)

/-- C9 (amended): the duplicate-content detector reports a hash group
iff at least two logged file events carry that content hash, counted
with multiplicity — the paths of the group need not be distinct.  The
reported group lists the paths of all those events in log order (so
two identical files under different paths are grouped under one hash,
but a single path logged twice is also reported). -/
theorem duplicate_group_iff_two_events (events : List FEvent) (h : String) :
    (h ∈ (duplicate_files events).map Prod.fst ↔ 2 ≤ countWithHash events h) ∧
    (∀ ps, (h, ps) ∈ duplicate_files events → ps = pathsWithHash events h) := by
  have hocc : objGet (hash_occurrences events) h
      = if pathsWithHash events h = [] then none
        else some (pathsWithHash events h) := by
    show objGet (events.foldl occStep []) h = _
    rw [objGet_hashOcc events [] h]
    rfl
  have hnod : ((hash_occurrences events).map Prod.fst).Nodup :=
    hashOcc_keys_nodup events [] (by simp)
  have hlen : (pathsWithHash events h).length = countWithHash events h := by
    unfold pathsWithHash countWithHash
    rw [List.length_map]
  have hkey : ∀ ps, (h, ps) ∈ hash_occurrences events → ps = pathsWithHash events h := by
    intro ps hps
    have := objGet_of_mem_nodup (hash_occurrences events) h ps hps hnod
    rw [hocc] at this
    by_cases hp : pathsWithHash events h = []
    · rw [if_pos hp] at this
      cases this
    · rw [if_neg hp] at this
      simpa using this.symm
  constructor
  · constructor
    · intro hmem
      rcases List.mem_map.mp hmem with ⟨e, he, hek⟩
      have hef : e ∈ hash_occurrences events ∧ (e.2.length > 1) := by
        have := List.mem_filter.mp he
        exact ⟨this.1, by simpa using this.2⟩
      have heq : e.2 = pathsWithHash events h := by
        apply hkey
        have : (h, e.2) = e := Prod.ext hek.symm rfl
        rw [this]
        exact hef.1
      have h2 := hef.2
      rw [heq, hlen] at h2
      omega
    · intro hcount
      have hp : ¬(pathsWithHash events h = []) := by
        intro hp
        rw [hp, List.length_nil] at hlen
        omega
      have hmem : (h, pathsWithHash events h) ∈ hash_occurrences events := by
        apply mem_of_objGet
        rw [hocc, if_neg hp]
      have hfil : (h, pathsWithHash events h) ∈ duplicate_files events := by
        apply List.mem_filter.mpr
        refine ⟨hmem, ?_⟩
        simp only [decide_eq_true_eq]
        show (pathsWithHash events h).length > 1
        omega
      exact List.mem_map.mpr ⟨(h, pathsWithHash events h), hfil, rfl⟩
  · intro ps hps
    exact hkey ps (List.mem_filter.mp hps).1

/-- A file event with path `p` and sha256 `h`. -/
def evC9 : FEvent :=
  { event_type := some "file_renamed", filepath := "p", sha256 := some "h",
    file_size := 5, timestamp := "t1" }

/-- C9 is false as stated: a single path logged twice with the same
hash *is* reported as a duplicate group (the group `("h", [p, p])` has
only one distinct path). -/
theorem duplicate_hash_same_path_cex :
    duplicate_files [evC9, evC9] = [("h", ["p", "p"])] := by decide

/-- Two distinct paths with identical content hashes. -/
def evC9a : FEvent :=
  { event_type := some "json_saved", filepath := "p1", sha256 := some "h",
    file_size := 5, timestamp := "t1" }

/-- Second event: same bytes, different path. -/
def evC9b : FEvent :=
  { event_type := some "json_saved", filepath := "p2", sha256 := some "h",
    file_size := 5, timestamp := "t2" }

/-- Witness for the amended C9: two identical files under different
paths are grouped under one hash, and the group lists both paths. -/
theorem duplicate_group_witness :
    "h" ∈ (duplicate_files [evC9a, evC9b]).map Prod.fst ∧
    ["p1", "p2"] = pathsWithHash [evC9a, evC9b] "h" :=
  ⟨(duplicate_group_iff_two_events [evC9a, evC9b] "h").1.mpr (by decide),
   (duplicate_group_iff_two_events [evC9a, evC9b] "h").2 ["p1", "p2"] (by decide)⟩
